import Mathlib

/-!
Verification of the `json-parser` crate (src/parser.rs, src/error.rs).

The Rust parser walks the input string with a character index
(`chars().nth(index)`), while slicing (`&s[a..b]`) and `len()` are
byte-based.  The embedding therefore models the input as a `List Char`
together with an explicit UTF-8 byte-length function, and models byte
slicing so that a slice whose end points do not fall on character
boundaries is a panic, exactly as in Rust.  Rust panics (`unwrap` on
`None`, out-of-bounds or non-boundary slicing) are modelled by the
`Outcome.panicked` constructor.

Loops of the Rust code become structurally recursive helpers on the
list suffix; the mutual recursion between `parse_value`,
`parse_object` and `parse_array` is driven by a fuel parameter.  Fuel
is only consumed when entering `parse_value` or one more iteration of
a container loop, and every such step consumes at least one input
character on every non-aborting path, so the fuel chosen by `parse`
(`3 * length + 8`) is never exhausted.
-/

/-- Error type of src/error.rs (the misspelling is the source's). -/
inductive Error where
  | UnexcpectedCharacters : Error
  | InvalidInput : String → Error
  deriving DecidableEq

/-- Outcome of a Rust `Result`-returning call, with a third alternative for
a Rust panic (the source can panic: `unwrap` on `None`, bad slice bounds). -/
inductive Outcome (α : Type) where
  | ok : α → Outcome α
  | err : Error → Outcome α
  | panicked : Outcome α
  deriving DecidableEq

/-- A 64-bit IEEE-754 float, in exact canonical form: `finite m e` is the
real number `m * 2 ^ e` with `m` odd (or `m = 0`, `e = 0`).  Every finite
double has exactly one such representation, so structural equality is
value equality (minus zero is conflated with zero; NaN is unreachable
from the number grammar of this parser). -/
inductive F64 where
  | finite (m : Int) (e : Int)
  | inf
  | negInf
  deriving DecidableEq

/-- Largest `k` with `b * 2 ^ k ≤ a` (for `b ≤ a`); fuel-driven so that the
kernel can evaluate it.  Any fuel at least the answer is enough, and the
recursion stops by itself, so callers pass a gross over-estimate. -/
def flog2_up : Nat → Nat → Nat → Nat
  | 0, _, _ => 0
  | f + 1, a, b => if b * 2 ≤ a then flog2_up f a (b * 2) + 1 else 0

/-- Smallest `k` with `b ≤ a * 2 ^ k` (for `a < b`), fuel-driven. -/
def flog2_down : Nat → Nat → Nat → Nat
  | 0, _, _ => 0
  | f + 1, a, b => if b ≤ a then 0 else flog2_down f (a * 2) b + 1

/-- Floor of the base-2 logarithm of the positive rational `a / b`. -/
def fraction_log2 (a b : Nat) : Int :=
  if b ≤ a then (flog2_up (a + 1) a b : Int) else -(flog2_down (b + 1) a b : Int)

/-- Round the nonnegative rational `num / den` to the nearest integer,
ties to even. -/
def round_half_even (num den : Nat) : Nat :=
  let q := num / den
  let r := num % den
  if 2 * r < den then q
  else if den < 2 * r then q + 1
  else if q % 2 = 0 then q else q + 1

/-- Strip factors of two from `m`, moving them into the exponent, to reach
the canonical odd-mantissa form.  Fuel `54` covers any `m < 2 ^ 54`. -/
def oddify : Nat → Nat → Int → Nat × Int
  | 0, m, e => (m, e)
  | f + 1, m, e => if m % 2 = 0 ∧ m ≠ 0 then oddify f (m / 2) (e + 1) else (m, e)

/-- Build the signed finite double `(-1)^neg * m * 2^e` in canonical form. -/
def mk_finite (neg : Bool) (m : Nat) (e : Int) : F64 :=
  if m = 0 then .finite 0 0
  else
    let p := oddify 54 m e
    .finite (if neg then -(p.1 : Int) else (p.1 : Int)) p.2

/-- Round the positive rational `a / b` (`a, b > 0`) to the nearest
64-bit double, ties to even, with IEEE overflow to infinity and gradual
underflow through the subnormal range.  This is the rounding performed
both by Rust's `str::parse::<f64>` and by an `i64 as f64` cast. -/
def round_f64_pos (neg : Bool) (a b : Nat) : F64 :=
  let e := fraction_log2 a b
  if 1023 < e then (if neg then .negInf else .inf)
  else if e < -1022 then
    -- subnormal range: round a / b to a multiple of 2 ^ (-1074)
    mk_finite neg (round_half_even (a * 2 ^ 1074) b) (-1074)
  else
    let shift := e - 52
    let m :=
      if 0 ≤ shift then round_half_even a (b * 2 ^ shift.toNat)
      else round_half_even (a * 2 ^ (-shift).toNat) b
    let me := if m = 2 ^ 53 then (2 ^ 52, e + 1) else (m, e)
    if 1023 < me.2 then (if neg then .negInf else .inf)
    else mk_finite neg me.1 (me.2 - 52)

/-- Round the exact rational `(-1)^neg * a / b` to the nearest double. -/
def round_f64 (neg : Bool) (a b : Nat) : F64 :=
  if a = 0 then .finite 0 0 else round_f64_pos neg a b

/-- The value of an `i64 as f64` cast (round to nearest, ties to even). -/
def i64_to_f64 (n : Int) : F64 :=
  round_f64 (decide (n < 0)) n.natAbs 1

/-- Numeric value of a run of ASCII decimal digit characters. -/
def digits_val (l : List Char) : Nat :=
  l.foldl (fun acc c => acc * 10 + (c.toNat - 48)) 0

/-- All characters are ASCII decimal digits. -/
def all_digits (l : List Char) : Bool :=
  l.all fun c => c.isDigit

/-- Rust `str::parse::<i64>`: an optional sign followed by a nonempty run
of decimal digits, whose value must fit in a signed 64-bit integer. -/
def rust_parse_i64 (l : List Char) : Option Int :=
  match l with
  | [] => none
  | c :: t =>
    let neg := c = '-'
    let ds := if c = '-' ∨ c = '+' then t else c :: t
    if ds = [] then none
    else if all_digits ds then
      let v : Int := (digits_val ds : Int)
      let v := if neg then -v else v
      if -(2 ^ 63) ≤ v ∧ v < 2 ^ 63 then some v else none
    else none

/-- Longest prefix of ASCII decimal digits, and the rest. -/
def span_digits : List Char → List Char × List Char
  | [] => ([], [])
  | c :: t =>
    if c.isDigit then
      let p := span_digits t
      (c :: p.1, p.2)
    else ([], c :: t)

/-- Rust `str::parse::<f64>` on the character runs this parser can
produce (digits, `.`, `e`, `E`, `+`, `-`; the textual forms `inf`,
`infinity` and `nan` contain letters the number scanner never collects,
so they are unreachable here and omitted): an optional sign, an integer
part and/or a fractional part (at least one digit between them), and an
optional exponent with a nonempty digit run.  The exact decimal value is
then rounded to the nearest double (ties to even), overflowing to
infinity and underflowing through subnormals to zero. -/
def rust_parse_f64 (l : List Char) : Option F64 :=
  let (neg, l1) : Bool × List Char :=
    match l with
    | '-' :: t => (true, t)
    | '+' :: t => (false, t)
    | _ => (false, l)
  let (ip, l2) := span_digits l1
  let (fp, l3) : List Char × List Char :=
    match l2 with
    | '.' :: t => span_digits t
    | _ => ([], l2)
  if ip = [] ∧ fp = [] then none
  else
    let kont : Int → Option F64 := fun ex =>
      let d := digits_val (ip ++ fp)
      let e10 : Int := ex - (fp.length : Int)
      if 0 ≤ e10 then some (round_f64 neg (d * 10 ^ e10.toNat) 1)
      else some (round_f64 neg d (10 ^ (-e10).toNat))
    match l3 with
    | [] => kont 0
    | 'e' :: t | 'E' :: t =>
      let (esign, t1) : Bool × List Char :=
        match t with
        | '-' :: u => (true, u)
        | '+' :: u => (false, u)
        | _ => (false, t)
      let (eds, t2) := span_digits t1
      if eds = [] ∨ t2 ≠ [] then none
      else kont (if esign then -(digits_val eds : Int) else (digits_val eds : Int))
    | _ => none

/-- Rust `char::is_whitespace`: the Unicode `White_Space` property,
written on code points (U+0009..U+000D, U+0020, U+0085, U+00A0, U+1680,
U+2000..U+200A, U+2028, U+2029, U+202F, U+205F, U+3000). -/
def rust_is_whitespace (c : Char) : Bool :=
  let n := c.toNat
  n == 0x20 || (0x09 ≤ n && n ≤ 0x0d) || n == 0x85 || n == 0xa0 || n == 0x1680 ||
  (0x2000 ≤ n && n ≤ 0x200a) || n == 0x2028 || n == 0x2029 || n == 0x202f ||
  n == 0x205f || n == 0x3000

/-- UTF-8 encoded length of one character, in bytes. -/
def utf8_len (c : Char) : Nat :=
  if c.toNat < 0x80 then 1
  else if c.toNat < 0x800 then 2
  else if c.toNat < 0x10000 then 3
  else 4

/-- Rust `str::len`: the UTF-8 byte length of the text. -/
def byte_len : List Char → Nat
  | [] => 0
  | c :: t => utf8_len c + byte_len t

/-- Split a character list at a byte offset.  `none` when the offset
exceeds the text or falls strictly inside a multi-byte character — the
situations in which Rust byte slicing panics. -/
def byte_split_at : List Char → Nat → Option (List Char × List Char)
  | l, 0 => some ([], l)
  | [], _ + 1 => none
  | c :: t, n + 1 =>
    if n + 1 < utf8_len c then none
    else
      match byte_split_at t (n + 1 - utf8_len c) with
      | some p => some (c :: p.1, p.2)
      | none => none

/-- Rust `&s[a..b]` with byte indices: the sliced text, or `none` for the
panicking cases (`a > b`, end point out of bounds, or an end point inside
a multi-byte character). -/
def slice_bytes (s : List Char) (a b : Nat) : Option (List Char) :=
  if a ≤ b then
    match byte_split_at s a with
    | none => none
    | some p =>
      match byte_split_at p.2 (b - a) with
      | none => none
      | some q => some q.1
  else none

/-- Rust `str::ends_with` for an ASCII pattern, on the character level
(an ASCII byte suffix match is exactly a character suffix match, since
UTF-8 continuation bytes are never ASCII). -/
def ends_with (s pat : List Char) : Bool :=
  s.drop (s.length - pat.length) == pat

/-- The JSON value tree of src/parser.rs.  Strings are kept as the sliced
character runs (escapes validated but undecoded); numbers are the `f64`
the source stores. -/
inductive JsonValue where
  | Object : List (List Char × JsonValue) → JsonValue
  | Array : List JsonValue → JsonValue
  | String : List Char → JsonValue
  | Number : F64 → JsonValue
  | Boolean : Bool → JsonValue
  | Null : JsonValue

/-- `JsonParser::consume`: advance past the current character only when
it equals `ch` (lenient: a mismatch is a no-op). -/
def consume (s : List Char) (ch : Char) (i : Nat) : Nat :=
  if s[i]? = some ch then i + 1 else i

/-- Loop of `JsonParser::consume_whitespace`, structurally on the suffix. -/
def consume_whitespace_aux : List Char → Nat → Nat
  | [], i => i
  | c :: t, i => if rust_is_whitespace c then consume_whitespace_aux t (i + 1) else i

/-- `JsonParser::consume_whitespace`: skip every `char::is_whitespace`
character from the cursor on. -/
def consume_whitespace (s : List Char) (i : Nat) : Nat :=
  consume_whitespace_aux (s.drop i) i

/-- `JsonParser::expect`: check (without consuming) that the current
character is `expected`. -/
def expect (s : List Char) (expected : Char) (i : Nat) : Outcome Unit :=
  if s[i]? = some expected then .ok ()
  else .err (.InvalidInput ("Expected: ".push expected ++ " and not found"))

/-- `JsonParser::is_valid_escape`. -/
def is_valid_escape (c : Char) : Bool :=
  c == '"' || c == '\\' || c == '/' || c == 'b' || c == 'f' ||
  c == 'n' || c == 'r' || c == 't' || c == 'u'

/-- Scanning loop of `JsonParser::parse_string`, structurally on the
suffix, carrying the absolute index.  `ok j` means the closing quote was
consumed and the cursor is at `j`; a backslash at the very end of input
is the source's `unwrap` panic. -/
def string_scan : List Char → Nat → Outcome Nat × Nat
  | [], i => (.err (.InvalidInput "Unterminated string"), i)
  | c :: t, i =>
    if c = '\\' then
      match t with
      | [] => (.panicked, i + 1)
      | c2 :: t2 =>
        if is_valid_escape c2 then string_scan t2 (i + 2)
        else (.err (.InvalidInput "Invalid escape_char"), i + 1)
    else if c = '\t' then (.err (.InvalidInput "Tab character in string"), i + 1)
    else if c = '\n' then (.err (.InvalidInput "Line break in string"), i + 1)
    else if c = '"' then (.ok (i + 1), i + 1)
    else string_scan t (i + 1)

/-- `JsonParser::parse_string`: optional opening quote, whitespace skip,
scan to the closing quote, then byte-slice the body out of the input
(with character indices used as byte offsets, as in the source). -/
def parse_string (s : List Char) (i : Nat) : Outcome JsonValue × Nat :=
  let i1 := consume s '"' i
  let start := consume_whitespace s i1
  match string_scan (s.drop start) start with
  | (.ok j, _) =>
    match slice_bytes s start (j - 1) with
    | some content => (.ok (.String content), j)
    | none => (.panicked, j)
  | (.err e, k) => (.err e, k)
  | (.panicked, k) => (.panicked, k)

/-- Scanning loop of `JsonParser::parse_number`: consume the maximal run
of characters in the number alphabet, flagging `.` and lowercase `e`. -/
def num_scan : List Char → Nat → Bool → Nat × Bool
  | [], i, has_dot => (i, has_dot)
  | c :: t, i, has_dot =>
    if c = '.' ∨ c = 'e' then num_scan t (i + 1) true
    else if ¬(c.isDigit = true ∨ c = 'e' ∨ c = 'E' ∨ c = '-' ∨ c = '+') then (i, has_dot)
    else num_scan t (i + 1) has_dot

/-- `JsonParser::parse_number`: scan the run, slice it out (character
indices as byte offsets), then parse it as `f64` when flagged, else check
the leading zero rule and parse as `i64`, widening to `f64` for storage. -/
def parse_number (s : List Char) (i : Nat) : Outcome JsonValue × Nat :=
  let start := i
  let sc := num_scan (s.drop i) i false
  let j := sc.1
  let has_dot := sc.2
  match slice_bytes s start j with
  | none => (.panicked, j)
  | some number_str =>
    if has_dot then
      match rust_parse_f64 number_str with
      | some num => (.ok (.Number num), j)
      | none => (.err (.InvalidInput "Invalid number"), j)
    else
      if s[start]? = some '0' ∧ 1 < byte_len number_str then
        (.err (.InvalidInput "Cant start with 0"), j)
      else
        match rust_parse_i64 number_str with
        | some num => (.ok (.Number (i64_to_f64 num)), j)
        | none => (.err (.InvalidInput "Invalid number"), j)

/-- `JsonParser::parse_boolean`: dispatch on the first character only and
jump the cursor by the literal's full length without checking the rest. -/
def parse_boolean (s : List Char) (i : Nat) : Outcome JsonValue × Nat :=
  let i1 := consume_whitespace s i
  match s[i1]? with
  | some 't' => (.ok (.Boolean true), i1 + 4)
  | some 'f' => (.ok (.Boolean false), i1 + 5)
  | _ => (.err (.InvalidInput "Invalid boolean value"), i1)

/-- `JsonParser::parse_null`: same single-character dispatch as booleans. -/
def parse_null (s : List Char) (i : Nat) : Outcome JsonValue × Nat :=
  match s[i]? with
  | some 'n' => (.ok .Null, i + 4)
  | _ => (.err (.InvalidInput "Invalid null value"), i)

/-- `JsonParser::sanity_check`: looks at the *raw first character* of the
input (`chars().next()`, not the cursor position), and at the raw last
two characters for a trailing comma. -/
def sanity_check (s : List Char) : Outcome Unit :=
  match s.head? with
  | none => .err (.InvalidInput "Invalid input")
  | some first_char =>
    match first_char with
    | '\x7b' | '[' =>
      if ends_with s [',', '\x7d'] || ends_with s [',', ']'] then
        .err (.InvalidInput "Trailing comma detected")
      else .ok ()
    | _ => .err (.InvalidInput "Json should be an object or array")

mutual

/-- `JsonParser::parse_value`: skip whitespace, then dispatch on the
current character (the object/array bodies of `parse_object` and
`parse_array` are entered through their loop helpers below). -/
def parse_value : Nat → List Char → Nat → Outcome JsonValue × Nat
  | 0, _, i => (.panicked, i)
  | fuel + 1, s, i =>
    let i := consume_whitespace s i
    match s[i]? with
    | some '\x7b' => parse_object_loop fuel s (consume s '\x7b' i) []
    | some '[' => parse_array_loop fuel s (consume s '[' i) []
    | some '"' => parse_string s i
    | some c =>
      if c.isDigit || c == '-' then parse_number s i
      else if c == 't' || c == 'f' then parse_boolean s i
      else if c == 'n' then parse_null s i
      else (.err .UnexcpectedCharacters, i)
    | none => (.err .UnexcpectedCharacters, i)

/-- Loop of `JsonParser::parse_object` (`while nth(index) != Some('\x7d')`),
with the accumulated member vector. -/
def parse_object_loop : Nat → List Char → Nat → List (List Char × JsonValue) →
    Outcome JsonValue × Nat
  | fuel, s, i, acc =>
    if s[i]? = some '\x7d' then (.ok (.Object acc), consume s '\x7d' i)
    else
      match fuel with
      | 0 => (.panicked, i)
      | fuel + 1 =>
        let i := consume_whitespace s i
        match parse_string s i with
        | (.ok kv, i) =>
          match kv with
          | .String key =>
            let i := if key = [] then consume s '"' i else i
            let i := consume_whitespace s i
            match expect s ':' i with
            | .err e => (.err e, i)
            | .panicked => (.panicked, i)
            | .ok _ =>
              let i := consume s ':' i
              let i := consume_whitespace s i
              match parse_value fuel s i with
              | (.ok value, i) =>
                let acc := acc ++ [(key, value)]
                let i := consume s '"' i
                let i := consume_whitespace s i
                if s[i]? = some ',' then
                  let i := consume s ',' i
                  let i := consume s '\n' i
                  parse_object_loop fuel s (consume_whitespace s i) acc
                else if s[i]? ≠ some '\x7d' then
                  (.err (.InvalidInput "Expected '\x7d' or ','"), i)
                else parse_object_loop fuel s (consume_whitespace s i) acc
              | (.err e, i) => (.err e, i)
              | (.panicked, i) => (.panicked, i)
          | _ => (.err .UnexcpectedCharacters, i)
        | (.err e, i) => (.err e, i)
        | (.panicked, i) => (.panicked, i)

/-- Loop of `JsonParser::parse_array` (`while nth(index) != Some(']')`). -/
def parse_array_loop : Nat → List Char → Nat → List JsonValue →
    Outcome JsonValue × Nat
  | fuel, s, i, acc =>
    if s[i]? = some ']' then (.ok (.Array acc), consume s ']' i)
    else
      match fuel with
      | 0 => (.panicked, i)
      | fuel + 1 =>
        match parse_value fuel s i with
        | (.ok value, i) =>
          let acc := acc ++ [value]
          let i := consume_whitespace s i
          if s[i]? = some ',' then
            parse_array_loop fuel s (consume s ',' i) acc
          else if s[i]? ≠ some ']' then
            (.err (.InvalidInput "Expected ']' or ','"), i)
          else parse_array_loop fuel s i acc
        | (.err e, i) => (.err e, i)
        | (.panicked, i) => (.panicked, i)

end

/-- `JsonParser::parse_object`: consume the `\x7b` and run the member loop. -/
def parse_object (fuel : Nat) (s : List Char) (i : Nat) : Outcome JsonValue × Nat :=
  parse_object_loop fuel s (consume s '\x7b' i) []

/-- `JsonParser::parse_array`: consume the `[` and run the element loop. -/
def parse_array (fuel : Nat) (s : List Char) (i : Nat) : Outcome JsonValue × Nat :=
  parse_array_loop fuel s (consume s '[' i) []

/-- Fuel budget used by `parse`: ample, since every fuel step consumes at
least one character on every path that keeps running. -/
def parse_fuel (s : List Char) : Nat := 3 * s.length + 8

/-- `JsonParser::parse`, the public entry point: leading whitespace,
sanity check, one value, trailing whitespace, then the end-of-input test
(which compares the character cursor against the *byte* length, as the
source does).  The second component is the final cursor position. -/
def parse (s : List Char) : Outcome JsonValue × Nat :=
  let i := consume_whitespace s 0
  match sanity_check s with
  | .err e => (.err e, i)
  | .panicked => (.panicked, i)
  | .ok _ =>
    match parse_value (parse_fuel s) s i with
    | (.ok result, j) =>
      let j := consume_whitespace s j
      if j ≠ byte_len s then (.err .UnexcpectedCharacters, j)
      else (.ok result, j)
    | other => other

/-! ### A canonical class of valid JSON documents

To state the specification's "for all valid JSON documents" claims
positively, the following abstract syntax of JSON documents is rendered
to concrete text and fed to the parser.  The rendering is canonical
valid JSON: no whitespace, strings over the escaped-or-plain ASCII
alphabet, integer number literals without leading zeros. -/

mutual

/-- Abstract JSON documents. -/
inductive Doc where
  | dnull : Doc
  | dbool : Bool → Doc
  | dnum : Int → Doc
  | dstr : List Char → Doc
  | darr : DocList → Doc
  | dobj : DocPairs → Doc

/-- Sequences of array elements. -/
inductive DocList where
  | nil : DocList
  | cons : Doc → DocList → DocList

/-- Sequences of object members. -/
inductive DocPairs where
  | nil : DocPairs
  | cons : List Char → Doc → DocPairs → DocPairs

end

/-- Digit character for a value below ten. -/
def digit_char (d : Nat) : Char := Char.ofNat (48 + d)

/-- Decimal digits of `n`, most significant first (fuel-driven; any fuel
above `n` is enough). -/
def render_nat_aux : Nat → Nat → List Char
  | 0, _ => []
  | f + 1, n =>
    if n < 10 then [digit_char n]
    else render_nat_aux f (n / 10) ++ [digit_char (n % 10)]

/-- Canonical decimal rendering of a natural number. -/
def render_nat (n : Nat) : List Char := render_nat_aux (n + 1) n

/-- Canonical decimal rendering of an integer. -/
def render_int (n : Int) : List Char :=
  if n < 0 then '-' :: render_nat n.natAbs else render_nat n.toNat

mutual

/-- Canonical text of a document: no whitespace, minimal punctuation. -/
def render : Doc → List Char
  | .dnull => ['n', 'u', 'l', 'l']
  | .dbool b => if b then ['t', 'r', 'u', 'e'] else ['f', 'a', 'l', 's', 'e']
  | .dnum n => render_int n
  | .dstr content => '"' :: content ++ ['"']
  | .darr xs => '[' :: render_elems xs ++ [']']
  | .dobj ps => '\x7b' :: render_members ps ++ ['\x7d']

/-- Comma-separated rendering of array elements. -/
def render_elems : DocList → List Char
  | .nil => []
  | .cons d .nil => render d
  | .cons d (.cons d2 t) => render d ++ ',' :: render_elems (.cons d2 t)

/-- Comma-separated rendering of object members (`"key":value`). -/
def render_members : DocPairs → List Char
  | .nil => []
  | .cons k d .nil => '"' :: k ++ '"' :: ':' :: render d
  | .cons k d (.cons k2 d2 t) =>
    ('"' :: k ++ '"' :: ':' :: render d) ++ ',' :: render_members (.cons k2 d2 t)

end

/-- A string-body character that needs no escaping: ASCII and none of
quote, backslash, tab, newline. -/
def good_char (c : Char) : Bool :=
  c.toNat < 128 && !(c == '"' || c == '\\' || c == '\t' || c == '\n')

/-- A legal string body: plain characters and valid two-character escape
sequences. -/
def good_body : List Char → Bool
  | [] => true
  | '\\' :: t =>
    match t with
    | [] => false
    | c2 :: t2 => is_valid_escape c2 && good_body t2
  | c :: t => good_char c && good_body t

/-- A string body the parser reproduces exactly: legal, and not opening
with whitespace (which the source's post-quote whitespace skip would
silently drop). -/
def good_str (l : List Char) : Bool :=
  good_body l &&
    match l.head? with
    | none => true
    | some c => !rust_is_whitespace c

mutual

/-- Well-formed documents of the canonical class: string bodies (and
keys) are `good_str`, and numbers are integers in the `i64` range. -/
def wf_doc : Doc → Bool
  | .dnull => true
  | .dbool _ => true
  | .dnum n => decide (-(2 ^ 63) ≤ n) && decide (n < 2 ^ 63)
  | .dstr content => good_str content
  | .darr xs => wf_list xs
  | .dobj ps => wf_pairs ps

/-- All elements are well-formed. -/
def wf_list : DocList → Bool
  | .nil => true
  | .cons d t => wf_doc d && wf_list t

/-- All members have well-formed keys and values. -/
def wf_pairs : DocPairs → Bool
  | .nil => true
  | .cons k d t => good_str k && wf_doc d && wf_pairs t

end

/-- The document is an object or an array at the top level. -/
def top_level : Doc → Bool
  | .darr _ => true
  | .dobj _ => true
  | _ => false

mutual

/-- The `JsonValue` the parser is expected to build for a document:
the same shape, with strings kept verbatim and integer literals going
through the `i64`-then-`f64` path of the source. -/
def to_value : Doc → JsonValue
  | .dnull => .Null
  | .dbool b => .Boolean b
  | .dnum n => .Number (i64_to_f64 n)
  | .dstr content => .String content
  | .darr xs => .Array (to_value_list xs)
  | .dobj ps => .Object (to_value_pairs ps)

/-- Element-wise `to_value`. -/
def to_value_list : DocList → List JsonValue
  | .nil => []
  | .cons d t => to_value d :: to_value_list t

/-- Member-wise `to_value`. -/
def to_value_pairs : DocPairs → List (List Char × JsonValue)
  | .nil => []
  | .cons k d t => (k, to_value d) :: to_value_pairs t

end

mutual

/-- Fuel needed by `parse_value` on a rendered document. -/
def size_doc : Doc → Nat
  | .darr xs => 1 + size_list xs
  | .dobj ps => 1 + size_pairs ps
  | _ => 1

/-- Fuel needed by `parse_array_loop` on rendered elements. -/
def size_list : DocList → Nat
  | .nil => 0
  | .cons d t => 1 + size_doc d + size_list t

/-- Fuel needed by `parse_object_loop` on rendered members. -/
def size_pairs : DocPairs → Nat
  | .nil => 0
  | .cons _ d t => 1 + size_doc d + size_pairs t

end

/-- All characters of the text are ASCII. -/
def ascii_only (l : List Char) : Bool :=
  l.all fun c => c.toNat < 128

mutual

/-- All numbers in the document are single decimal digits `0`..`9`: on
this subclass the `i64`-to-`f64` widening is trivially injective, which
the distinctness theorem needs. -/
def small_nums : Doc → Bool
  | .dnum n => decide (0 ≤ n) && decide (n < 10)
  | .darr xs => small_nums_list xs
  | .dobj ps => small_nums_pairs ps
  | _ => true

/-- Element-wise `small_nums`. -/
def small_nums_list : DocList → Bool
  | .nil => true
  | .cons d t => small_nums d && small_nums_list t

/-- Member-wise `small_nums`. -/
def small_nums_pairs : DocPairs → Bool
  | .nil => true
  | .cons _ d t => small_nums d && small_nums_pairs t

end

/-- Inverse of `i64_to_f64` on the single digits. -/
def f64_digit_inv (x : F64) : Option Int :=
  if x = .finite 0 0 then some 0
  else if x = .finite 1 0 then some 1
  else if x = .finite 1 1 then some 2
  else if x = .finite 3 0 then some 3
  else if x = .finite 1 2 then some 4
  else if x = .finite 5 0 then some 5
  else if x = .finite 3 1 then some 6
  else if x = .finite 7 0 then some 7
  else if x = .finite 1 3 then some 8
  else if x = .finite 9 0 then some 9
  else none

mutual

/-- Partial inverse of `to_value` (total on `small_nums` documents). -/
def from_value : JsonValue → Option Doc
  | .Null => some .dnull
  | .Boolean b => some (.dbool b)
  | .Number x => (f64_digit_inv x).map .dnum
  | .String c => some (.dstr c)
  | .Array l => (from_value_list l).map .darr
  | .Object l => (from_value_pairs l).map .dobj

/-- Element-wise partial inverse. -/
def from_value_list : List JsonValue → Option DocList
  | [] => some .nil
  | v :: t =>
    match from_value v, from_value_list t with
    | some d, some dt => some (.cons d dt)
    | _, _ => none

/-- Member-wise partial inverse. -/
def from_value_pairs : List (List Char × JsonValue) → Option DocPairs
  | [] => some .nil
  | (k, v) :: t =>
    match from_value v, from_value_pairs t with
    | some d, some dt => some (.cons k d dt)
    | _, _ => none

end

/-! ### Basic cursor and text lemmas -/

/-- Indexing is the head of the dropped suffix. -/
theorem getq (s : List Char) (i : Nat) : s[i]? = (s.drop i).head? :=
  (List.head?_drop s i).symm

/-- A known suffix determines the current character. -/
theorem getq_of_drop {s : List Char} {i : Nat} {c : Char} {r : List Char}
    (h : s.drop i = c :: r) : s[i]? = some c := by
  rw [getq, h]; rfl

/-- A known suffix determines the next suffix. -/
theorem drop_succ_of_drop {s : List Char} {i : Nat} {c : Char} {r : List Char}
    (h : s.drop i = c :: r) : s.drop (i + 1) = r := by
  rw [← List.tail_drop, h]; rfl

/-- A nonempty suffix keeps the cursor in bounds. -/
theorem lt_length_of_drop {s : List Char} {i : Nat} {c : Char} {r : List Char}
    (h : s.drop i = c :: r) : i < s.length ∧ s.length = i + 1 + r.length := by
  have hl := congrArg List.length h
  rw [List.length_drop] at hl
  simp at hl
  omega

/-- An empty suffix means the cursor is at or past the end. -/
theorem getq_none_of_drop {s : List Char} {i : Nat} (h : s.drop i = []) :
    s[i]? = none := by
  rw [getq, h]; rfl

/-- `consume` advances over the expected character. -/
theorem consume_hit {s : List Char} {i : Nat} {c : Char} {r : List Char}
    (h : s.drop i = c :: r) : consume s c i = i + 1 := by
  simp [consume, getq_of_drop h]

/-- `consume` is a no-op on any other character. -/
theorem consume_miss {s : List Char} {i : Nat} {c ch : Char} {r : List Char}
    (h : s.drop i = c :: r) (hne : c ≠ ch) : consume s ch i = i := by
  simp [consume, getq_of_drop h]
  exact fun e => absurd e hne

/-- `consume` is a no-op at the end of input. -/
theorem consume_nil {s : List Char} {i : Nat} {ch : Char}
    (h : s.drop i = []) : consume s ch i = i := by
  simp [consume, getq_none_of_drop h]

/-- `consume_whitespace` stops at once on a non-whitespace character. -/
theorem cw_stop {s : List Char} {i : Nat} {c : Char} {r : List Char}
    (h : s.drop i = c :: r) (hw : rust_is_whitespace c = false) :
    consume_whitespace s i = i := by
  rw [consume_whitespace, h]
  simp [consume_whitespace_aux, hw]

/-- `consume_whitespace` is a no-op at the end of input. -/
theorem cw_nil {s : List Char} {i : Nat} (h : s.drop i = []) :
    consume_whitespace s i = i := by
  rw [consume_whitespace, h]
  rfl

/-- `expect` succeeds on the expected character. -/
theorem expect_hit {s : List Char} {i : Nat} {c : Char} {r : List Char}
    (h : s.drop i = c :: r) : expect s c i = .ok () := by
  simp [expect, getq_of_drop h]

/-! ### ASCII text and byte-offset lemmas -/

/-- One byte per ASCII character. -/
theorem utf8_len_ascii {c : Char} (h : c.toNat < 128) : utf8_len c = 1 := by
  simp [utf8_len, h]

/-- `ascii_only` distributes over append. -/
theorem ascii_only_append {a b : List Char} :
    ascii_only (a ++ b) = (ascii_only a && ascii_only b) := by
  simp [ascii_only]

/-- Suffixes of ASCII text are ASCII. -/
theorem ascii_only_drop {s : List Char} (h : ascii_only s = true) (i : Nat) :
    ascii_only (s.drop i) = true := by
  rw [← List.take_append_drop i s, ascii_only_append] at h
  exact (Bool.and_eq_true_iff.mp h).2

/-- ASCII text has as many bytes as characters. -/
theorem byte_len_ascii : ∀ {l : List Char}, ascii_only l = true → byte_len l = l.length
  | [], _ => rfl
  | c :: t, h => by
    have hct : c.toNat < 128 ∧ ascii_only t = true := by
      simp [ascii_only] at h ⊢
      exact h
    simp [byte_len, utf8_len_ascii hct.1, byte_len_ascii hct.2]
    omega

/-- Splitting ASCII text at a byte offset is splitting at that character
position. -/
theorem byte_split_at_ascii : ∀ (l : List Char) (n : Nat), ascii_only l = true →
    n ≤ l.length → byte_split_at l n = some (l.take n, l.drop n)
  | l, 0, _, _ => by simp [byte_split_at]
  | [], n + 1, _, hn => by simp at hn
  | c :: t, n + 1, ha, hn => by
    have hc : c.toNat < 128 := by simp [ascii_only] at ha; exact ha.1
    have ht : ascii_only t = true := by simp [ascii_only] at ha ⊢; exact ha.2
    have hrec := byte_split_at_ascii t n ht (by simpa using hn)
    simp [byte_split_at, utf8_len_ascii hc, hrec]

/-- Byte slicing of ASCII text with in-bounds offsets is character
slicing. -/
theorem slice_bytes_ascii {s : List Char} {a b : Nat} (ha : ascii_only s = true)
    (hab : a ≤ b) (hb : b ≤ s.length) :
    slice_bytes s a b = some ((s.drop a).take (b - a)) := by
  have h1 := byte_split_at_ascii s a ha (le_trans hab hb)
  have h2 := byte_split_at_ascii (s.drop a) (b - a) (ascii_only_drop ha a)
    (by rw [List.length_drop]; omega)
  simp [slice_bytes, hab, h1, h2]

/-- The sliced text of a known suffix is its prefix. -/
theorem take_of_drop {s : List Char} {i : Nat} {l post : List Char}
    (h : s.drop i = l ++ post) : (s.drop i).take l.length = l := by
  rw [h]; exact List.take_left l post

/-! ### Digit and decimal-rendering lemmas -/

/-- Characters differ when their code points do. -/
theorem char_ne_of_toNat {c d : Char} (h : c.toNat ≠ d.toNat) : c ≠ d :=
  fun e => h (congrArg Char.toNat e)

/-- The digit character of `d < 10` is a digit carrying code `48 + d`. -/
theorem digit_char_spec : ∀ d : Nat, d < 10 →
    (digit_char d).isDigit = true ∧ (digit_char d).toNat = 48 + d := by
  have hfin : ∀ x : Fin 10,
      (digit_char x.val).isDigit = true ∧ (digit_char x.val).toNat = 48 + x.val := by
    decide
  intro d hd
  exact hfin ⟨d, hd⟩

/-- A digit character's code point lies between 48 and 57. -/
theorem digit_range {c : Char} (hd : c.isDigit = true) :
    48 ≤ c.toNat ∧ c.toNat ≤ 57 := by
  simp only [Char.isDigit, Bool.and_eq_true, decide_eq_true_eq] at hd
  obtain ⟨h1, h2⟩ := hd
  exact ⟨h1, h2⟩

/-- Digits are not whitespace (in the full Unicode sense). -/
theorem digit_not_ws {c : Char} (hd : c.isDigit = true) :
    rust_is_whitespace c = false := by
  have hr := digit_range hd
  simp only [rust_is_whitespace, Bool.or_eq_false_iff, beq_eq_false_iff_ne, ne_eq,
    Bool.and_eq_false_iff, decide_eq_false_iff_not, Nat.not_le]
  omega

/-- Digits are ASCII. -/
theorem digit_ascii {c : Char} (hd : c.isDigit = true) : c.toNat < 128 := by
  have hr := digit_range hd
  omega

/-- A digit differs from any concrete non-digit character. -/
theorem digit_ne {c x : Char} (hd : c.isDigit = true) (hx : x.isDigit = false) :
    c ≠ x := by
  intro e
  rw [e, hx] at hd
  exact Bool.false_ne_true hd

/-- Folding one more digit onto the accumulated value. -/
theorem digits_val_snoc (l : List Char) (c : Char) :
    digits_val (l ++ [c]) = digits_val l * 10 + (c.toNat - 48) := by
  simp [digits_val, List.foldl_append]

/-- The digit renderer ignores the fuel as soon as it is sufficient. -/
theorem render_nat_aux_irrel : ∀ (m f g : Nat), m < f → m < g →
    render_nat_aux f m = render_nat_aux g m := by
  intro m
  induction m using Nat.strongRecOn with
  | _ m ih =>
    intro f g hf hg
    match f, g with
    | f' + 1, g' + 1 =>
      simp only [render_nat_aux]
      by_cases h : m < 10
      · simp [h]
      · simp only [if_neg h]
        rw [ih (m / 10) (by omega) f' g' (by omega) (by omega)]

/-- Unfolding the decimal renderer, last digit first. -/
theorem render_nat_unfold (n : Nat) :
    render_nat n = (if n < 10 then [] else render_nat (n / 10)) ++ [digit_char (n % 10)] := by
  have hstep : render_nat n =
      if n < 10 then [digit_char n]
      else render_nat_aux n (n / 10) ++ [digit_char (n % 10)] := rfl
  by_cases h : n < 10
  · rw [hstep, if_pos h, if_pos h, Nat.mod_eq_of_lt h, List.nil_append]
  · rw [hstep, if_neg h, if_neg h,
      render_nat_aux_irrel (n / 10) n (n / 10 + 1) (by omega) (by omega)]
    rfl

/-- Every character of the rendered decimal is a digit. -/
theorem render_nat_digits : ∀ n : Nat, ∀ c ∈ render_nat n, c.isDigit = true := by
  intro n
  induction n using Nat.strongRecOn with
  | _ n ih =>
    rw [render_nat_unfold]
    intro c hc
    rw [List.mem_append] at hc
    rcases hc with hc | hc
    · by_cases h : n < 10
      · rw [if_pos h] at hc; cases hc
      · rw [if_neg h] at hc
        exact ih (n / 10) (by omega) c hc
    · rw [List.mem_singleton] at hc
      subst hc
      exact (digit_char_spec (n % 10) (by omega)).1

/-- The rendered decimal starts with a digit, which is nonzero when the
number is. -/
theorem render_nat_head : ∀ n : Nat, ∃ c t, render_nat n = c :: t ∧
    c.isDigit = true ∧ (1 ≤ n → c ≠ '0') := by
  intro n
  induction n using Nat.strongRecOn with
  | _ n ih =>
    rw [render_nat_unfold]
    by_cases h : n < 10
    · rw [if_pos h, List.nil_append, Nat.mod_eq_of_lt h]
      refine ⟨digit_char n, [], rfl, (digit_char_spec n h).1, fun h1 => ?_⟩
      apply char_ne_of_toNat
      rw [(digit_char_spec n h).2]
      intro e
      have : ('0').toNat = 48 := rfl
      omega
    · obtain ⟨c, t, he, hcd, hne⟩ := ih (n / 10) (by omega)
      refine ⟨c, t ++ [digit_char (n % 10)], by simp [h, he], hcd,
        fun _ => hne (by omega)⟩

/-- Parsing back the rendered decimal recovers the number. -/
theorem digits_val_render_nat : ∀ n : Nat, digits_val (render_nat n) = n := by
  intro n
  induction n using Nat.strongRecOn with
  | _ n ih =>
    rw [render_nat_unfold, digits_val_snoc]
    by_cases h : n < 10
    · rw [if_pos h]
      have := (digit_char_spec (n % 10) (by omega)).2
      simp [digits_val]
      omega
    · rw [if_neg h, ih (n / 10) (by omega)]
      have := (digit_char_spec (n % 10) (by omega)).2
      omega

/-- Characters of a rendered integer: digits, or the leading minus. -/
theorem render_int_chars (n : Int) :
    ∀ c ∈ render_int n, c.isDigit = true ∨ c = '-' := by
  intro c hc
  rw [render_int] at hc
  by_cases h : n < 0
  · rw [if_pos h] at hc
    rcases List.mem_cons.mp hc with hc | hc
    · right; exact hc
    · left; exact render_nat_digits _ c hc
  · rw [if_neg h] at hc
    left; exact render_nat_digits _ c hc

/-- Rendered integers are ASCII text. -/
theorem render_int_ascii (n : Int) : ascii_only (render_int n) = true := by
  rw [ascii_only, List.all_eq_true]
  intro c hc
  rcases render_int_chars n c hc with h | h
  · simpa using digit_ascii h
  · subst h; decide

/-- Rendered integers are nonempty and start with a digit or a minus. -/
theorem render_int_head (n : Int) : ∃ c t, render_int n = c :: t ∧
    (c.isDigit = true ∨ c = '-') := by
  rw [render_int]
  by_cases h : n < 0
  · exact ⟨'-', _, by rw [if_pos h], Or.inr rfl⟩
  · obtain ⟨c, t, he, hcd, _⟩ := render_nat_head n.toNat
    exact ⟨c, t, by rw [if_neg h, he], Or.inl hcd⟩

/-- `str::parse::<i64>` inverts the canonical integer rendering on the
whole `i64` range. -/
theorem rust_parse_i64_render (n : Int) (h1 : -(2 ^ 63) ≤ n) (h2 : n < 2 ^ 63) :
    rust_parse_i64 (render_int n) = some n := by
  norm_num at h1 h2
  by_cases h : n < 0
  · have he : render_int n = '-' :: render_nat n.natAbs := by rw [render_int, if_pos h]
    obtain ⟨c, t, hrn, hcd, _⟩ := render_nat_head n.natAbs
    have hne : render_nat n.natAbs ≠ [] := by rw [hrn]; simp
    have hall : all_digits (render_nat n.natAbs) = true := by
      rw [all_digits, List.all_eq_true]
      intro x hx
      simpa using render_nat_digits _ x hx
    have hv : (digits_val (render_nat n.natAbs) : Int) = -n := by
      rw [digits_val_render_nat]
      omega
    rw [he]
    simp [rust_parse_i64, hne, hall, hv, h1, h2]
  · have he : render_int n = render_nat n.toNat := by rw [render_int, if_neg h]
    obtain ⟨c, t, hrn, hcd, _⟩ := render_nat_head n.toNat
    have hcm : ¬(c = '-' ∨ c = '+') := by
      rintro (rfl | rfl) <;> simp at hcd
    have hcne : ¬ c = '-' := fun e => hcm (Or.inl e)
    have hcp : ¬ c = '+' := fun e => hcm (Or.inr e)
    have hall : all_digits (c :: t) = true := by
      rw [← hrn, all_digits, List.all_eq_true]
      intro x hx
      simpa using render_nat_digits _ x hx
    have hv : (digits_val (c :: t) : Int) = n := by
      rw [← hrn, digits_val_render_nat]
      omega
    rw [he, hrn]
    simp [rust_parse_i64, hcm, hcne, hcp, hall, hv, h1, h2]

/-! ### Number-scanner lemmas -/

/-- What may legally follow a rendered value: nothing, or a separator or
closing delimiter. -/
def delim_ok (rest : List Char) : Prop :=
  rest = [] ∨ ∃ c t, rest = c :: t ∧ (c = ',' ∨ c = ']' ∨ c = '\x7d')

/-- The number scanner consumes exactly a digits-and-minus run when what
follows is a delimiter, and it never sets the flag on such a run. -/
theorem num_scan_run : ∀ (l rest : List Char) (i : Nat) (b : Bool),
    (∀ c ∈ l, c.isDigit = true ∨ c = '-') → delim_ok rest →
    num_scan (l ++ rest) i b = (i + l.length, b)
  | [], rest, i, b, _, hr => by
    rcases hr with rfl | ⟨c, t, rfl, hc⟩
    · simp [num_scan]
    · have h1 : ¬(c = '.' ∨ c = 'e') := by
        rcases hc with rfl | rfl | rfl <;> simp
      have h2 : ¬(c.isDigit = true ∨ c = 'e' ∨ c = 'E' ∨ c = '-' ∨ c = '+') := by
        rcases hc with rfl | rfl | rfl <;> simp
      simp [num_scan, h1, h2]
  | c :: l, rest, i, b, hl, hr => by
    have hc := hl c (List.mem_cons_self c l)
    have h1 : ¬(c = '.' ∨ c = 'e') := by
      rcases hc with hc | rfl
      · rintro (rfl | rfl) <;> simp at hc
      · simp
    have h2 : c.isDigit = true ∨ c = 'e' ∨ c = 'E' ∨ c = '-' ∨ c = '+' := by
      rcases hc with hc | rfl
      · exact Or.inl hc
      · right; right; right; left; rfl
    have ih := num_scan_run l rest (i + 1) b (fun x hx => hl x (List.mem_cons_of_mem c hx)) hr
    simp only [List.cons_append, num_scan, if_neg h1, if_neg (not_not_intro h2),
      List.append_eq, List.length_cons]
    rw [ih]
    simp only [Prod.mk.injEq]
    exact ⟨by omega, trivial⟩
/-- Unpacking a good plain string-body character. -/
theorem good_char_spec {c : Char} (h : good_char c = true) :
    c.toNat < 128 ∧ c ≠ '"' ∧ c ≠ '\\' ∧ c ≠ '\t' ∧ c ≠ '\n' := by
  simp only [good_char, Bool.and_eq_true, decide_eq_true_eq, Bool.not_eq_true',
    Bool.or_eq_false_iff, beq_eq_false_iff_ne, ne_eq] at h
  exact ⟨h.1, h.2.1.1.1, h.2.1.1.2, h.2.1.2, h.2.2⟩

/-- The nine legal escape indicators are ASCII. -/
theorem valid_escape_ascii {c : Char} (h : is_valid_escape c = true) :
    c.toNat < 128 := by
  simp only [is_valid_escape, Bool.or_eq_true, beq_iff_eq] at h
  rcases h with ((((((((rfl | rfl) | rfl) | rfl) | rfl) | rfl) | rfl) | rfl) | rfl) <;> decide

/-- Good string bodies are ASCII text. -/
theorem good_body_ascii : ∀ {l : List Char}, good_body l = true → ascii_only l = true
  | [], _ => rfl
  | '\\' :: t, hg => by
    match t with
    | [] => simp [good_body] at hg
    | c2 :: t2 =>
      have h2 : is_valid_escape c2 = true ∧ good_body t2 = true := by
        simpa [good_body] using hg
      have ih := good_body_ascii h2.2
      simp only [ascii_only, List.all_cons, Bool.and_eq_true, decide_eq_true_eq]
      refine ⟨by decide, valid_escape_ascii h2.1, ?_⟩
      simpa [ascii_only] using ih
  | c :: t, hg => by
    by_cases hc : c = '\\'
    · subst hc
      match t with
      | [] => simp [good_body] at hg
      | c2 :: t2 =>
        have h2 : is_valid_escape c2 = true ∧ good_body t2 = true := by
          simpa [good_body] using hg
        have ih := good_body_ascii h2.2
        simp only [ascii_only, List.all_cons, Bool.and_eq_true, decide_eq_true_eq]
        refine ⟨by decide, valid_escape_ascii h2.1, ?_⟩
        simpa [ascii_only] using ih
    · have h2 : good_char c = true ∧ good_body t = true := by
        simp [good_body, hc] at hg
        exact hg
      have ih := good_body_ascii h2.2
      have hac := (good_char_spec h2.1).1
      simp only [ascii_only, List.all_cons, Bool.and_eq_true, decide_eq_true_eq]
      refine ⟨hac, ?_⟩
      simpa [ascii_only] using ih

/-- The string scanner crosses a good body and stops exactly at the
closing quote. -/
theorem string_scan_good : ∀ (content : List Char), good_body content = true →
    ∀ (post : List Char) (i : Nat),
    string_scan (content ++ '"' :: post) i =
      (.ok (i + content.length + 1), i + content.length + 1)
  | [], _, post, i => by
    rw [List.nil_append, string_scan.eq_def]
    simp only [if_neg (show ¬ ('"' : Char) = '\\' by decide),
      if_neg (show ¬ ('"' : Char) = '\t' by decide),
      if_neg (show ¬ ('"' : Char) = '\n' by decide), if_pos rfl,
      List.length_nil, if_true, Nat.add_zero]
  | '\\' :: t, hg, post, i => by
    match t with
    | [] => simp [good_body] at hg
    | c2 :: t2 =>
      have h2 : is_valid_escape c2 = true ∧ good_body t2 = true := by
        simpa [good_body] using hg
      have ih := string_scan_good t2 h2.2 post (i + 2)
      rw [List.cons_append, List.cons_append, string_scan.eq_def]
      simp only [if_pos rfl, h2.1, if_true]
      rw [ih]
      simp only [List.length_cons, Prod.mk.injEq, Outcome.ok.injEq]
      omega
  | c :: t, hg, post, i => by
    by_cases hc : c = '\\'
    · subst hc
      match t with
      | [] => simp [good_body] at hg
      | c2 :: t2 =>
        have h2 : is_valid_escape c2 = true ∧ good_body t2 = true := by
          simpa [good_body] using hg
        have ih := string_scan_good t2 h2.2 post (i + 2)
        rw [List.cons_append, List.cons_append, string_scan.eq_def]
        simp only [if_pos rfl, h2.1, if_true]
        rw [ih]
        simp only [List.length_cons, Prod.mk.injEq, Outcome.ok.injEq]
        omega
    · have h2 : good_char c = true ∧ good_body t = true := by
        simp [good_body, hc] at hg
        exact hg
      obtain ⟨_, hq, hbs, htab, hnl⟩ := good_char_spec h2.1
      have ih := string_scan_good t h2.2 post (i + 1)
      rw [List.cons_append, string_scan.eq_def]
      simp only [if_neg hc, if_neg htab, if_neg hnl, if_neg hq]
      rw [ih]
      simp only [List.length_cons, Prod.mk.injEq, Outcome.ok.injEq]
      omega
/-- `parse_string` on a rendered string literal returns exactly the body
(escapes and all, verbatim) and stops after the closing quote. -/
theorem parse_string_render {s : List Char} {i : Nat} {content post : List Char}
    (ha : ascii_only s = true) (hg : good_str content = true)
    (hd : s.drop i = '"' :: (content ++ '"' :: post)) :
    parse_string s i = (.ok (.String content), i + content.length + 2) := by
  have hgb : good_body content = true := by
    simp only [good_str, Bool.and_eq_true] at hg
    exact hg.1
  have h1 : consume s '"' i = i + 1 := consume_hit hd
  have hd1 : s.drop (i + 1) = content ++ '"' :: post := drop_succ_of_drop hd
  have hcw : consume_whitespace s (i + 1) = i + 1 := by
    rcases content with _ | ⟨c, t⟩
    · rw [List.nil_append] at hd1
      exact cw_stop hd1 (by decide)
    · have hws : rust_is_whitespace c = false := by
        simp only [good_str, Bool.and_eq_true, List.head?_cons, Bool.not_eq_true'] at hg
        exact hg.2
      rw [List.cons_append] at hd1
      exact cw_stop hd1 hws
  have hd1' : s.drop (i + 1) = content ++ '"' :: post := by
    rw [← hd1]
  have hscan : string_scan (s.drop (i + 1)) (i + 1) =
      (.ok (i + 1 + content.length + 1), i + 1 + content.length + 1) := by
    rw [hd1']
    exact string_scan_good content hgb post (i + 1)
  have hL : s.length = i + 1 + content.length + 1 + post.length := by
    have h := congrArg List.length hd
    rw [List.length_drop] at h
    simp at h
    omega
  have hslice : slice_bytes s (i + 1) (i + 1 + content.length) = some content := by
    rw [slice_bytes_ascii ha (by omega) (by omega)]
    have he : i + 1 + content.length - (i + 1) = content.length := by omega
    rw [he, hd1', List.take_left]
  simp only [parse_string, h1, hcw, hscan]
  have hj : i + 1 + content.length + 1 - 1 = i + 1 + content.length := by omega
  rw [hj, hslice]
  have hfin : i + 1 + content.length + 1 = i + content.length + 2 := by omega
  rw [hfin]

/-- `parse_number` on a rendered `i64` literal takes the integer path and
stores the widened value. -/
theorem parse_number_render {s : List Char} {i : Nat} {n : Int} {post : List Char}
    (ha : ascii_only s = true) (h1 : -(2 ^ 63) ≤ n) (h2 : n < 2 ^ 63)
    (hd : s.drop i = render_int n ++ post) (hp : delim_ok post) :
    parse_number s i = (.ok (.Number (i64_to_f64 n)), i + (render_int n).length) := by
  have hscan : num_scan (s.drop i) i false = (i + (render_int n).length, false) := by
    rw [hd]
    exact num_scan_run _ _ _ _ (render_int_chars n) hp
  obtain ⟨c0, t0, he0, hc0⟩ := render_int_head n
  have hlen1 : 1 ≤ (render_int n).length := by rw [he0]; simp
  have hL : s.length = i + (render_int n).length + post.length := by
    have h := congrArg List.length hd
    rw [List.length_drop, List.length_append] at h
    omega
  have hslice : slice_bytes s i (i + (render_int n).length) = some (render_int n) := by
    rw [slice_bytes_ascii ha (by omega) (by omega)]
    have he : i + (render_int n).length - i = (render_int n).length := by omega
    rw [he, take_of_drop hd]
  have hbl : byte_len (render_int n) = (render_int n).length :=
    byte_len_ascii (render_int_ascii n)
  have hlead : ¬(s[i]? = some '0' ∧ 1 < byte_len (render_int n)) := by
    by_cases hneg : n < 0
    · have he : render_int n = '-' :: render_nat n.natAbs := by
        rw [render_int, if_pos hneg]
      have hgq : s[i]? = some '-' := getq_of_drop (by rw [hd, he]; rfl)
      rintro ⟨hz, _⟩
      rw [hgq] at hz
      exact absurd (Option.some.inj hz) (by decide)
    · have he : render_int n = render_nat n.toNat := by rw [render_int, if_neg hneg]
      by_cases hz0 : n.toNat = 0
      · have hren : render_int n = ['0'] := by
          rw [he, hz0]
          decide
        rintro ⟨_, hlt⟩
        rw [hren] at hlt
        exact absurd hlt (by decide)
      · obtain ⟨c, t, hrn, hcd, hnz⟩ := render_nat_head n.toNat
        have hgq : s[i]? = some c := getq_of_drop (by rw [hd, he, hrn]; rfl)
        rintro ⟨hz, _⟩
        rw [hgq] at hz
        exact hnz (by omega) (Option.some.inj hz)
  have hi64 : rust_parse_i64 (render_int n) = some n := rust_parse_i64_render n h1 h2
  simp only [parse_number, hscan]
  simp only [hslice, hi64, if_neg hlead, Bool.false_eq_true, if_false]

/-- `parse_boolean` on the rendered `true` literal. -/
theorem parse_boolean_render_t {s : List Char} {i : Nat} {post : List Char}
    (hd : s.drop i = 't' :: 'r' :: 'u' :: 'e' :: post) :
    parse_boolean s i = (.ok (.Boolean true), i + 4) := by
  have hcw : consume_whitespace s i = i := cw_stop hd (by decide)
  have hgq : s[i]? = some 't' := getq_of_drop hd
  simp [parse_boolean, hcw, hgq]

/-- `parse_boolean` on the rendered `false` literal. -/
theorem parse_boolean_render_f {s : List Char} {i : Nat} {post : List Char}
    (hd : s.drop i = 'f' :: 'a' :: 'l' :: 's' :: 'e' :: post) :
    parse_boolean s i = (.ok (.Boolean false), i + 5) := by
  have hcw : consume_whitespace s i = i := cw_stop hd (by decide)
  have hgq : s[i]? = some 'f' := getq_of_drop hd
  simp [parse_boolean, hcw, hgq]

/-- `parse_null` on the rendered `null` literal. -/
theorem parse_null_render {s : List Char} {i : Nat} {post : List Char}
    (hd : s.drop i = 'n' :: 'u' :: 'l' :: 'l' :: post) :
    parse_null s i = (.ok .Null, i + 4) := by
  have hgq : s[i]? = some 'n' := getq_of_drop hd
  simp [parse_null, hgq]

/-- Advancing the cursor across a known prefix of the suffix. -/
theorem drop_append_of_drop {s : List Char} {i : Nat} {l rest : List Char}
    (h : s.drop i = l ++ rest) : s.drop (i + l.length) = rest := by
  have h2 : (s.drop i).drop l.length = rest := by rw [h, List.drop_left]
  rw [List.drop_drop] at h2
  exact h2

/-- `delim_ok` constructors. -/
theorem delim_ok_nil : delim_ok [] := Or.inl rfl

/-- A comma may follow a value. -/
theorem delim_ok_comma (t : List Char) : delim_ok (',' :: t) :=
  Or.inr ⟨',', t, rfl, Or.inl rfl⟩

/-- A closing bracket may follow a value. -/
theorem delim_ok_rb (t : List Char) : delim_ok (']' :: t) :=
  Or.inr ⟨']', t, rfl, Or.inr (Or.inl rfl)⟩

/-- A closing brace may follow a value. -/
theorem delim_ok_cb (t : List Char) : delim_ok ('\x7d' :: t) :=
  Or.inr ⟨'\x7d', t, rfl, Or.inr (Or.inr rfl)⟩

/-- Every parser-relevant fuel bound is positive. -/
theorem size_doc_pos : ∀ d : Doc, 1 ≤ size_doc d
  | .dnull => le_refl 1
  | .dbool _ => le_refl 1
  | .dnum _ => le_refl 1
  | .dstr _ => le_refl 1
  | .darr _ => by simp [size_doc]
  | .dobj _ => by simp [size_doc]

/-- The first character of any rendered document is not whitespace and is
none of the characters that close or separate containers. -/
theorem render_head (d : Doc) : ∃ c t, render d = c :: t ∧
    rust_is_whitespace c = false ∧ c ≠ ']' ∧ c ≠ '\x7d' ∧ c ≠ ',' := by
  cases d with
  | dnull => exact ⟨'n', _, rfl, by decide, by decide, by decide, by decide⟩
  | dbool b =>
    cases b with
    | true => exact ⟨'t', _, by rw [render]; rfl, by decide, by decide, by decide, by decide⟩
    | false => exact ⟨'f', _, by rw [render]; rfl, by decide, by decide, by decide, by decide⟩
  | dstr content => exact ⟨'"', _, rfl, by decide, by decide, by decide, by decide⟩
  | darr xs => exact ⟨'[', _, rfl, by decide, by decide, by decide, by decide⟩
  | dobj ps => exact ⟨'\x7b', _, rfl, by decide, by decide, by decide, by decide⟩
  | dnum n =>
    obtain ⟨c, t, he, hc⟩ := render_int_head n
    rcases hc with hc | rfl
    · exact ⟨c, t, he, digit_not_ws hc, digit_ne hc (by decide), digit_ne hc (by decide),
        digit_ne hc (by decide)⟩
    · exact ⟨'-', t, he, by decide, by decide, by decide, by decide⟩

/-- A rendered member sequence starts with the key's opening quote. -/
theorem render_members_head (k : List Char) (d : Doc) (t : DocPairs) :
    ∃ r, render_members (.cons k d t) = '"' :: r := by
  cases t with
  | nil => exact ⟨k ++ '"' :: ':' :: render d, rfl⟩
  | cons k2 d2 t2 =>
    exact ⟨k ++ '"' :: ':' :: render d ++ ',' :: render_members (.cons k2 d2 t2), by
      rw [render_members]; simp [List.append_assoc]⟩

mutual

/-- Core round-trip: on a rendered well-formed document followed by a
delimiter, `parse_value` succeeds with the expected value and stops
exactly at the end of the rendered text. -/
theorem parse_value_render : ∀ (d : Doc) (s : List Char) (i fuel : Nat) (post : List Char),
    wf_doc d = true → ascii_only s = true → s.drop i = render d ++ post → delim_ok post →
    size_doc d ≤ fuel →
    parse_value fuel s i = (.ok (to_value d), i + (render d).length)
  | .dnull, s, i, fuel, post, hw, ha, hd, hp, hf => by
    cases fuel with
    | zero => exact absurd hf (by simp [size_doc])
    | succ m =>
      have hd' : s.drop i = 'n' :: 'u' :: 'l' :: 'l' :: post := by
        simpa [render] using hd
      have hcw : consume_whitespace s i = i := cw_stop hd' (by decide)
      have hgq : s[i]? = some 'n' := getq_of_drop hd'
      rw [parse_value.eq_def]
      simp only [hcw, hgq]
      norm_num
      rw [parse_null_render hd']
      simp [to_value, render]
  | .dbool b, s, i, fuel, post, hw, ha, hd, hp, hf => by
    cases fuel with
    | zero => exact absurd hf (by simp [size_doc])
    | succ m =>
      cases b with
      | true =>
        have hd' : s.drop i = 't' :: 'r' :: 'u' :: 'e' :: post := by
          simpa [render] using hd
        have hcw : consume_whitespace s i = i := cw_stop hd' (by decide)
        have hgq : s[i]? = some 't' := getq_of_drop hd'
        rw [parse_value.eq_def]
        simp only [hcw, hgq]
        norm_num
        rw [parse_boolean_render_t hd']
        simp [to_value, render]
      | false =>
        have hd' : s.drop i = 'f' :: 'a' :: 'l' :: 's' :: 'e' :: post := by
          simpa [render] using hd
        have hcw : consume_whitespace s i = i := cw_stop hd' (by decide)
        have hgq : s[i]? = some 'f' := getq_of_drop hd'
        rw [parse_value.eq_def]
        simp only [hcw, hgq]
        norm_num
        rw [parse_boolean_render_f hd']
        simp [to_value, render]
  | .dnum n, s, i, fuel, post, hw, ha, hd, hp, hf => by
    cases fuel with
    | zero => exact absurd hf (by simp [size_doc])
    | succ m =>
      have hb : -(2 ^ 63) ≤ n ∧ n < 2 ^ 63 := by
        simpa [wf_doc] using hw
      have hdr : s.drop i = render_int n ++ post := by simpa [render] using hd
      obtain ⟨c0, t0, he0, hc0⟩ := render_int_head n
      have hd' : s.drop i = c0 :: (t0 ++ post) := by rw [hdr, he0]; simp
      have hws : rust_is_whitespace c0 = false := by
        rcases hc0 with h | rfl
        · exact digit_not_ws h
        · decide
      have hcw : consume_whitespace s i = i := cw_stop hd' hws
      have hgq : s[i]? = some c0 := getq_of_drop hd'
      have hdig : (c0.isDigit || c0 == '-') = true := by
        rcases hc0 with h | rfl
        · simp [h]
        · simp
      have hnum := parse_number_render ha hb.1 hb.2 hdr hp
      rw [parse_value.eq_def]
      simp only [hcw, hgq]
      split
      · rename_i heq
        rcases hc0 with h | h
        · exact absurd (show ('\x7b').isDigit = true by rw [← Option.some.inj heq]; exact h)
            (by decide)
        · exact absurd (Option.some.inj heq) (by rw [h]; decide)
      · rename_i heq
        rcases hc0 with h | h
        · exact absurd (show ('[').isDigit = true by rw [← Option.some.inj heq]; exact h)
            (by decide)
        · exact absurd (Option.some.inj heq) (by rw [h]; decide)
      · rename_i heq
        rcases hc0 with h | h
        · exact absurd (show ('"').isDigit = true by rw [← Option.some.inj heq]; exact h)
            (by decide)
        · exact absurd (Option.some.inj heq) (by rw [h]; decide)
      · rename_i sc cc hne1 hne2 hne3 heq
        have hcc : c0 = cc := Option.some.inj heq
        subst hcc
        rw [if_pos hdig, hnum]
        simp [to_value, render]
      · rename_i heq
        exact absurd heq (by simp)
  | .dstr content, s, i, fuel, post, hw, ha, hd, hp, hf => by
    cases fuel with
    | zero => exact absurd hf (by simp [size_doc])
    | succ m =>
      have hg : good_str content = true := by simpa [wf_doc] using hw
      have hd' : s.drop i = '"' :: (content ++ '"' :: post) := by
        rw [hd, render]
        simp
      have hcw : consume_whitespace s i = i := cw_stop hd' (by decide)
      have hgq : s[i]? = some '"' := getq_of_drop hd'
      rw [parse_value.eq_def]
      simp only [hcw, hgq]
      norm_num
      rw [parse_string_render ha hg hd']
      simp only [to_value, render, List.length_cons, List.length_append,
        List.length_nil, Prod.mk.injEq]
      first
        | exact ⟨by trivial, by omega⟩
        | omega
        | rfl
        | trivial
  | .darr xs, s, i, fuel, post, hw, ha, hd, hp, hf => by
    cases fuel with
    | zero => exact absurd hf (by simp [size_doc])
    | succ m =>
      have hwl : wf_list xs = true := by simpa [wf_doc] using hw
      have hd' : s.drop i = '[' :: (render_elems xs ++ ']' :: post) := by
        rw [hd, render]
        simp
      have hcw : consume_whitespace s i = i := cw_stop hd' (by decide)
      have hgq : s[i]? = some '[' := getq_of_drop hd'
      have hfl : size_list xs ≤ m := by simp [size_doc] at hf; omega
      have hrec := parse_array_loop_render xs s (i + 1) m post []
        hwl ha (drop_succ_of_drop hd') hfl
      rw [parse_value.eq_def]
      simp only [hcw, hgq]
      norm_num
      rw [consume_hit hd', hrec]
      simp only [to_value, render, List.length_cons, List.length_append,
        List.length_nil, List.nil_append, Prod.mk.injEq]
      first
        | exact ⟨by trivial, by omega⟩
        | omega
        | rfl
        | trivial
  | .dobj ps, s, i, fuel, post, hw, ha, hd, hp, hf => by
    cases fuel with
    | zero => exact absurd hf (by simp [size_doc])
    | succ m =>
      have hwp : wf_pairs ps = true := by simpa [wf_doc] using hw
      have hd' : s.drop i = '\x7b' :: (render_members ps ++ '\x7d' :: post) := by
        rw [hd, render]
        simp
      have hcw : consume_whitespace s i = i := cw_stop hd' (by decide)
      have hgq : s[i]? = some '\x7b' := getq_of_drop hd'
      have hfp : size_pairs ps ≤ m := by simp [size_doc] at hf; omega
      have hrec := parse_object_loop_render ps s (i + 1) m post []
        hwp ha (drop_succ_of_drop hd') hfp
      rw [parse_value.eq_def]
      simp only [hcw, hgq]
      norm_num
      rw [consume_hit hd', hrec]
      simp only [to_value, render, List.length_cons, List.length_append,
        List.length_nil, List.nil_append, Prod.mk.injEq]
      first
        | exact ⟨by trivial, by omega⟩
        | omega
        | rfl
        | trivial

/-- Loop invariant of `parse_array_loop` over rendered elements. -/
theorem parse_array_loop_render : ∀ (xs : DocList) (s : List Char) (i fuel : Nat)
    (post : List Char) (acc : List JsonValue),
    wf_list xs = true → ascii_only s = true →
    s.drop i = render_elems xs ++ ']' :: post → size_list xs ≤ fuel →
    parse_array_loop fuel s i acc =
      (.ok (.Array (acc ++ to_value_list xs)), i + (render_elems xs).length + 1)
  | .nil, s, i, fuel, post, acc, hw, ha, hd, hf => by
    have hd' : s.drop i = ']' :: post := by simpa [render_elems] using hd
    have hgq : s[i]? = some ']' := getq_of_drop hd'
    rw [parse_array_loop.eq_def]
    simp only [hgq, if_pos rfl]
    rw [consume_hit hd']
    simp [render_elems, to_value_list]
  | .cons d t, s, i, fuel, post, acc, hw, ha, hd, hf => by
    have hwp : wf_doc d = true ∧ wf_list t = true := by simpa [wf_list] using hw
    obtain ⟨c0, t0, hh, hws, hrb, hcb, hcm⟩ := render_head d
    cases fuel with
    | zero => exact absurd hf (by simp [size_list])
    | succ m =>
      cases t with
      | nil =>
        have hd1 : s.drop i = render d ++ ']' :: post := by
          simpa [render_elems] using hd
        have hd1' : s.drop i = c0 :: (t0 ++ ']' :: post) := by rw [hd1, hh]; simp
        have hgq : s[i]? = some c0 := getq_of_drop hd1'
        have hne : ¬ s[i]? = some ']' := by
          rw [hgq]
          intro e
          exact hrb (Option.some.inj e)
        have hpv := parse_value_render d s i m (']' :: post) hwp.1 ha hd1
          (delim_ok_rb post) (by simp [size_list] at hf; omega)
        have hdj : s.drop (i + (render d).length) = ']' :: post := drop_append_of_drop hd1
        have hcwj : consume_whitespace s (i + (render d).length) = i + (render d).length :=
          cw_stop hdj (by decide)
        have hgqj : s[i + (render d).length]? = some ']' := getq_of_drop hdj
        have hrec := parse_array_loop_render .nil s (i + (render d).length) m post
          (acc ++ [to_value d]) rfl ha hdj (by simp [size_list])
        rw [parse_array_loop.eq_def]
        simp only [if_neg hne]
        simp only [hpv, hcwj, hgqj]
        norm_num
        rw [hrec]
        simp only [render_elems, to_value_list, List.length_nil, List.append_assoc,
          List.cons_append, List.nil_append, Prod.mk.injEq]
        first
        | exact ⟨by trivial, by omega⟩
        | omega
        | rfl
        | trivial
      | cons d2 t2 =>
        have hd1 : s.drop i = render d ++ (',' :: (render_elems (.cons d2 t2) ++ ']' :: post)) := by
          rw [hd, render_elems]
          simp
        have hd1' : s.drop i = c0 :: (t0 ++ (',' :: (render_elems (.cons d2 t2) ++ ']' :: post))) := by
          rw [hd1, hh]
          simp
        have hgq : s[i]? = some c0 := getq_of_drop hd1'
        have hne : ¬ s[i]? = some ']' := by
          rw [hgq]
          intro e
          exact hrb (Option.some.inj e)
        have hpv := parse_value_render d s i m
          (',' :: (render_elems (.cons d2 t2) ++ ']' :: post)) hwp.1 ha hd1
          (delim_ok_comma _) (by simp [size_list] at hf; omega)
        have hdj : s.drop (i + (render d).length) =
            ',' :: (render_elems (.cons d2 t2) ++ ']' :: post) := drop_append_of_drop hd1
        have hcwj : consume_whitespace s (i + (render d).length) = i + (render d).length :=
          cw_stop hdj (by decide)
        have hgqj : s[i + (render d).length]? = some ',' := getq_of_drop hdj
        have hrec := parse_array_loop_render (.cons d2 t2) s (i + (render d).length + 1) m post
          (acc ++ [to_value d]) hwp.2 ha (drop_succ_of_drop hdj)
          (by simp [size_list] at hf ⊢; omega)
        rw [parse_array_loop.eq_def]
        simp only [if_neg hne]
        simp only [hpv, hcwj, hgqj]
        norm_num
        rw [consume_hit hdj, hrec]
        simp only [render_elems, to_value_list, List.length_cons, List.length_append,
          List.append_assoc, List.cons_append, List.nil_append, Prod.mk.injEq]
        first
        | exact ⟨by trivial, by omega⟩
        | omega
        | rfl
        | trivial

/-- Loop invariant of `parse_object_loop` over rendered members. -/
theorem parse_object_loop_render : ∀ (ps : DocPairs) (s : List Char) (i fuel : Nat)
    (post : List Char) (acc : List (List Char × JsonValue)),
    wf_pairs ps = true → ascii_only s = true →
    s.drop i = render_members ps ++ '\x7d' :: post → size_pairs ps ≤ fuel →
    parse_object_loop fuel s i acc =
      (.ok (.Object (acc ++ to_value_pairs ps)), i + (render_members ps).length + 1)
  | .nil, s, i, fuel, post, acc, hw, ha, hd, hf => by
    have hd' : s.drop i = '\x7d' :: post := by simpa [render_members] using hd
    have hgq : s[i]? = some '\x7d' := getq_of_drop hd'
    rw [parse_object_loop.eq_def]
    simp only [hgq, if_pos rfl]
    rw [consume_hit hd']
    simp [render_members, to_value_pairs]
  | .cons k d t, s, i, fuel, post, acc, hw, ha, hd, hf => by
    have hwp : (good_str k = true ∧ wf_doc d = true) ∧ wf_pairs t = true := by
      simpa [wf_pairs] using hw
    obtain ⟨c0, t0, hh, hws, hrb, hcb, hcm⟩ := render_head d
    cases fuel with
    | zero => exact absurd hf (by simp [size_pairs])
    | succ m =>
      -- the rest of the member text after the rendered value
      have hrest : ∃ rest : List Char,
          s.drop i = '"' :: (k ++ '"' :: (':' :: (render d ++ rest))) ∧
          delim_ok rest ∧
          rest = (match t with
            | .nil => '\x7d' :: post
            | .cons k2 d2 t2 => ',' :: (render_members (.cons k2 d2 t2) ++ '\x7d' :: post)) := by
        cases t with
        | nil =>
          refine ⟨'\x7d' :: post, ?_, delim_ok_cb post, rfl⟩
          rw [hd, render_members]
          simp
        | cons k2 d2 t2 =>
          refine ⟨',' :: (render_members (.cons k2 d2 t2) ++ '\x7d' :: post), ?_,
            delim_ok_comma _, rfl⟩
          rw [hd, render_members]
          simp
      obtain ⟨rest, hdm, hpr, hrdef⟩ := hrest
      have hgq : s[i]? = some '"' := getq_of_drop hdm
      have hne : ¬ s[i]? = some '\x7d' := by
        rw [hgq]
        intro e
        exact absurd (Option.some.inj e) (by decide)
      have hcw : consume_whitespace s i = i := cw_stop hdm (by decide)
      have hstr := parse_string_render ha hwp.1.1
        (show s.drop i = '"' :: (k ++ '"' :: (':' :: (render d ++ rest))) from hdm)
      -- position after the key string
      have hdk' : s.drop (i + k.length + 2) = ':' :: (render d ++ rest) := by
        have hsplit : s.drop i = ('"' :: (k ++ ['"'])) ++ (':' :: (render d ++ rest)) := by
          rw [hdm]
          simp
        have h2 := drop_append_of_drop hsplit
        rw [show i + ('"' :: (k ++ ['"'])).length = i + k.length + 2 from by
          simp only [List.length_cons, List.length_append, List.length_nil]
          omega] at h2
        exact h2
      have hkq : (if k = [] then consume s '"' (i + k.length + 2) else i + k.length + 2)
          = i + k.length + 2 := by
        by_cases hk : k = []
        · rw [if_pos hk]
          exact consume_miss hdk' (by decide)
        · rw [if_neg hk]
      have hcwk : consume_whitespace s (i + k.length + 2) = i + k.length + 2 :=
        cw_stop hdk' (by decide)
      have hexp : expect s ':' (i + k.length + 2) = .ok () := expect_hit hdk'
      have hcol : consume s ':' (i + k.length + 2) = i + k.length + 3 := by
        rw [consume_hit hdk']
      have hdv : s.drop (i + k.length + 3) = render d ++ rest := by
        have h2 := drop_succ_of_drop hdk'
        rwa [show i + k.length + 2 + 1 = i + k.length + 3 from by omega] at h2
      have hdv' : s.drop (i + k.length + 3) = c0 :: (t0 ++ rest) := by
        rw [hdv, hh]
        simp
      have hcwv : consume_whitespace s (i + k.length + 3) = i + k.length + 3 :=
        cw_stop hdv' hws
      have hpv := parse_value_render d s (i + k.length + 3) m rest hwp.1.2 ha hdv hpr
        (by simp [size_pairs] at hf; omega)
      -- position after the value
      have hdw : s.drop (i + k.length + 3 + (render d).length) = rest :=
        drop_append_of_drop hdv
      have hrne : ∃ r0 rt, rest = r0 :: rt ∧ (r0 = ',' ∨ r0 = '\x7d') ∧
          rust_is_whitespace r0 = false ∧ r0 ≠ '"' := by
        cases t with
        | nil =>
          simp only [hrdef]
          exact ⟨'\x7d', post, rfl, Or.inr rfl, by decide, by decide⟩
        | cons k2 d2 t2 =>
          simp only [hrdef]
          exact ⟨',', _, rfl, Or.inl rfl, by decide, by decide⟩
      obtain ⟨r0, rt, hr0, hr01, hr0w, hr0q⟩ := hrne
      have hdw0 : s.drop (i + k.length + 3 + (render d).length) = r0 :: rt := by
        rw [hdw, hr0]
      have hcq : consume s '"' (i + k.length + 3 + (render d).length)
          = i + k.length + 3 + (render d).length := consume_miss hdw0 (fun e => hr0q e)
      have hcww : consume_whitespace s (i + k.length + 3 + (render d).length)
          = i + k.length + 3 + (render d).length := cw_stop hdw0 hr0w
      rw [parse_object_loop.eq_def]
      simp only [if_neg hne]
      simp only [hcw, hstr, hkq, hcwk, hexp, hcol, hcwv, hpv, hcq, hcww]
      cases t with
      | nil =>
        have hrpd : rest = '\x7d' :: post := hrdef
        have hdend : s.drop (i + k.length + 3 + (render d).length) = '\x7d' :: post := by
          rw [hdw, hrpd]
        have hgqw : s[i + k.length + 3 + (render d).length]? = some '\x7d' :=
          getq_of_drop hdend
        rw [if_neg (show ¬ s[i + k.length + 3 + (render d).length]? = some ','
          from by rw [hgqw]; intro e; exact absurd (Option.some.inj e) (by decide))]
        rw [if_neg (show ¬ ¬ s[i + k.length + 3 + (render d).length]? = some '\x7d'
          from by rw [hgqw]; exact fun e => e rfl)]
        have hrec := parse_object_loop_render .nil s (i + k.length + 3 + (render d).length) m
          post (acc ++ [(k, to_value d)]) rfl ha hdend (by simp [size_pairs])
        rw [hrec]
        simp only [render_members, to_value_pairs, List.length_nil, List.append_assoc,
          List.cons_append, List.nil_append, List.length_cons, List.length_append,
          Prod.mk.injEq]
        first
        | exact ⟨by trivial, by omega⟩
        | omega
        | rfl
        | trivial
      | cons k2 d2 t2 =>
        have hrpd : rest = ',' :: (render_members (.cons k2 d2 t2) ++ '\x7d' :: post) := hrdef
        have hdend : s.drop (i + k.length + 3 + (render d).length) =
            ',' :: (render_members (.cons k2 d2 t2) ++ '\x7d' :: post) := by
          rw [hdw, hrpd]
        have hgqw : s[i + k.length + 3 + (render d).length]? = some ',' :=
          getq_of_drop hdend
        rw [if_pos hgqw]
        have hccm : consume s ',' (i + k.length + 3 + (render d).length)
            = i + k.length + 3 + (render d).length + 1 := consume_hit hdend
        obtain ⟨r2, hm2⟩ := render_members_head k2 d2 t2
        have hdn1 : s.drop (i + k.length + 3 + (render d).length + 1) =
            render_members (.cons k2 d2 t2) ++ '\x7d' :: post := drop_succ_of_drop hdend
        have hdn2 : s.drop (i + k.length + 3 + (render d).length + 1) =
            '"' :: (r2 ++ '\x7d' :: post) := by
          rw [hdn1, hm2]
          simp
        have hcnl : consume s '\n' (i + k.length + 3 + (render d).length + 1)
            = i + k.length + 3 + (render d).length + 1 := consume_miss hdn2 (by decide)
        have hcwn : consume_whitespace s (i + k.length + 3 + (render d).length + 1)
            = i + k.length + 3 + (render d).length + 1 := cw_stop hdn2 (by decide)
        have hrec := parse_object_loop_render (.cons k2 d2 t2) s
          (i + k.length + 3 + (render d).length + 1) m post
          (acc ++ [(k, to_value d)]) hwp.2 ha hdn1
          (by simp [size_pairs] at hf ⊢; omega)
        rw [hccm, hcnl, hcwn, hrec]
        simp only [render_members, to_value_pairs, List.length_nil, List.append_assoc,
          List.cons_append, List.nil_append, List.length_cons, List.length_append,
          Prod.mk.injEq]
        first
        | exact ⟨by trivial, by omega⟩
        | omega
        | rfl
        | trivial

end

/-- `ascii_only` over a cons cell, as a Boolean equation. -/
theorem ascii_only_cons (c : Char) (l : List Char) :
    ascii_only (c :: l) = (decide (c.toNat < 128) && ascii_only l) := by
  simp [ascii_only]

/-- `ascii_only` of the empty text. -/
theorem ascii_only_nil : ascii_only [] = true := rfl

mutual

/-- Rendered well-formed documents are ASCII text. -/
theorem render_ascii : ∀ d : Doc, wf_doc d = true → ascii_only (render d) = true
  | .dnull, _ => by decide
  | .dbool b, _ => by cases b <;> decide
  | .dnum n, _ => render_int_ascii n
  | .dstr content, hw => by
    have hg : good_str content = true := by simpa [wf_doc] using hw
    have hb : good_body content = true := by
      simp only [good_str, Bool.and_eq_true] at hg
      exact hg.1
    have hc := good_body_ascii hb
    simp [render, ascii_only_append, ascii_only_cons, ascii_only_nil, hc]
  | .darr xs, hw => by
    have h := render_elems_ascii xs (by simpa [wf_doc] using hw)
    simp [render, ascii_only_append, ascii_only_cons, ascii_only_nil, h]
  | .dobj ps, hw => by
    have h := render_members_ascii ps (by simpa [wf_doc] using hw)
    simp [render, ascii_only_append, ascii_only_cons, ascii_only_nil, h]

/-- Rendered element sequences are ASCII text. -/
theorem render_elems_ascii : ∀ xs : DocList, wf_list xs = true →
    ascii_only (render_elems xs) = true
  | .nil, _ => rfl
  | .cons d .nil, hw => by
    have h : wf_doc d = true := by simpa [wf_list] using hw
    simpa [render_elems] using render_ascii d h
  | .cons d (.cons d2 t2), hw => by
    have h : wf_doc d = true ∧ wf_list (DocList.cons d2 t2) = true := by
      simpa [wf_list] using hw
    have h1 := render_ascii d h.1
    have h2 := render_elems_ascii (.cons d2 t2) h.2
    simp [render_elems, ascii_only_append, ascii_only_cons, h1, h2]

/-- Rendered member sequences are ASCII text. -/
theorem render_members_ascii : ∀ ps : DocPairs, wf_pairs ps = true →
    ascii_only (render_members ps) = true
  | .nil, _ => rfl
  | .cons k d .nil, hw => by
    have h : good_str k = true ∧ wf_doc d = true := by simpa [wf_pairs] using hw
    have hk : ascii_only k = true := by
      have hb : good_body k = true := by
        have := h.1
        simp only [good_str, Bool.and_eq_true] at this
        exact this.1
      exact good_body_ascii hb
    have hv := render_ascii d h.2
    simp [render_members, ascii_only_append, ascii_only_cons, ascii_only_nil, hk, hv]
  | .cons k d (.cons k2 d2 t2), hw => by
    have h : (good_str k = true ∧ wf_doc d = true) ∧
        wf_pairs (DocPairs.cons k2 d2 t2) = true := by
      simpa [wf_pairs] using hw
    have hk : ascii_only k = true := by
      have hb : good_body k = true := by
        have := h.1.1
        simp only [good_str, Bool.and_eq_true] at this
        exact this.1
      exact good_body_ascii hb
    have hv := render_ascii d h.1.2
    have hrest := render_members_ascii (.cons k2 d2 t2) h.2
    simp [render_members, ascii_only_append, ascii_only_cons, ascii_only_nil, hk, hv, hrest]

end

/-- Rendered documents are nonempty. -/
theorem render_len_pos (d : Doc) : 1 ≤ (render d).length := by
  obtain ⟨c, t, he, _⟩ := render_head d
  rw [he]
  simp

mutual

/-- The fuel bound grows at most linearly in the rendered length. -/
theorem size_doc_le : ∀ d : Doc, size_doc d ≤ 3 * (render d).length
  | .dnull => by simp [size_doc, render]
  | .dbool b => by cases b <;> simp [size_doc, render]
  | .dnum n => by
    have := render_len_pos (.dnum n)
    simp only [size_doc]
    omega
  | .dstr content => by
    have := render_len_pos (.dstr content)
    simp only [size_doc]
    omega
  | .darr xs => by
    have h := size_list_le xs
    simp only [size_doc, render, List.length_cons, List.length_append, List.length_nil]
    omega
  | .dobj ps => by
    have h := size_pairs_le ps
    simp only [size_doc, render, List.length_cons, List.length_append, List.length_nil]
    omega

/-- Element-sequence analogue of `size_doc_le`. -/
theorem size_list_le : ∀ xs : DocList, size_list xs ≤ 3 * (render_elems xs).length + 1
  | .nil => by simp [size_list]
  | .cons d .nil => by
    have h := size_doc_le d
    have hp := render_len_pos d
    simp only [size_list, size_pairs, render_elems]
    omega
  | .cons d (.cons d2 t2) => by
    have h := size_doc_le d
    have ht := size_list_le (.cons d2 t2)
    have hp := render_len_pos d
    have hstep : size_list (.cons d (.cons d2 t2))
        = 1 + size_doc d + size_list (.cons d2 t2) := rfl
    have hrlen : (render_elems (.cons d (.cons d2 t2))).length
        = (render d).length + 1 + (render_elems (.cons d2 t2)).length := by
      simp only [render_elems, List.length_append, List.length_cons]
      omega
    rw [hstep, hrlen]
    omega

/-- Member-sequence analogue of `size_doc_le`. -/
theorem size_pairs_le : ∀ ps : DocPairs, size_pairs ps ≤ 3 * (render_members ps).length + 1
  | .nil => by simp [size_pairs]
  | .cons k d .nil => by
    have h := size_doc_le d
    have hp := render_len_pos d
    simp only [size_pairs, size_list, render_members, List.length_cons,
      List.length_append, List.length_nil]
    omega
  | .cons k d (.cons k2 d2 t2) => by
    have h := size_doc_le d
    have ht := size_pairs_le (.cons k2 d2 t2)
    have hp := render_len_pos d
    have hstep : size_pairs (.cons k d (.cons k2 d2 t2))
        = 1 + size_doc d + size_pairs (.cons k2 d2 t2) := rfl
    have hrlen : (render_members (.cons k d (.cons k2 d2 t2))).length
        = k.length + 3 + (render d).length + 1
          + (render_members (.cons k2 d2 t2)).length := by
      simp only [render_members, List.length_append, List.length_cons]
      omega
    rw [hstep, hrlen]
    omega

end

/-- Every rendered integer literal ends in a decimal digit. -/
theorem render_int_concat (n : Int) :
    ∃ pre dd, dd < 10 ∧ render_int n = pre ++ [digit_char dd] := by
  by_cases hneg : n < 0
  · refine ⟨'-' :: (if n.natAbs < 10 then [] else render_nat (n.natAbs / 10)),
      n.natAbs % 10, by omega, ?_⟩
    rw [render_int, if_pos hneg, render_nat_unfold]
    simp
  · refine ⟨(if n.toNat < 10 then [] else render_nat (n.toNat / 10)),
      n.toNat % 10, by omega, ?_⟩
    rw [render_int, if_neg hneg, render_nat_unfold]

/-- Every rendered document ends in a character other than a comma. -/
theorem render_concat (d : Doc) : ∃ pre a, render d = pre ++ [a] ∧ a ≠ ',' := by
  cases d with
  | dnull => exact ⟨['n', 'u', 'l'], 'l', rfl, by decide⟩
  | dbool b =>
    cases b with
    | true => exact ⟨['t', 'r', 'u'], 'e', by simp [render], by decide⟩
    | false => exact ⟨['f', 'a', 'l', 's'], 'e', by simp [render], by decide⟩
  | dnum n =>
    obtain ⟨pre, dd, hdd, he⟩ := render_int_concat n
    exact ⟨pre, digit_char dd, by rw [render, he],
      digit_ne (digit_char_spec dd hdd).1 (by decide)⟩
  | dstr content =>
    exact ⟨'"' :: content, '"', by rw [render], by decide⟩
  | darr xs =>
    exact ⟨'[' :: render_elems xs, ']', by rw [render], by decide⟩
  | dobj ps =>
    exact ⟨'\x7b' :: render_members ps, '\x7d', by rw [render], by decide⟩

/-- Nonempty rendered element sequences end in a non-comma character. -/
theorem render_elems_concat : ∀ (d0 : Doc) (t : DocList),
    ∃ pre a, render_elems (.cons d0 t) = pre ++ [a] ∧ a ≠ ','
  | d0, .nil => by
    obtain ⟨pre, a, he, ha⟩ := render_concat d0
    exact ⟨pre, a, by rw [render_elems, he], ha⟩
  | d0, .cons d2 t2 => by
    obtain ⟨pre, a, he, ha⟩ := render_elems_concat d2 t2
    refine ⟨render d0 ++ ',' :: pre, a, ?_, ha⟩
    rw [render_elems, he]
    simp

/-- Nonempty rendered member sequences end in a non-comma character. -/
theorem render_members_concat : ∀ (k0 : List Char) (d0 : Doc) (t : DocPairs),
    ∃ pre a, render_members (.cons k0 d0 t) = pre ++ [a] ∧ a ≠ ','
  | k0, d0, .nil => by
    obtain ⟨pre, a, he, ha⟩ := render_concat d0
    refine ⟨'"' :: k0 ++ '"' :: ':' :: pre, a, ?_, ha⟩
    rw [render_members, he]
    simp
  | k0, d0, .cons k2 d2 t2 => by
    obtain ⟨pre, a, he, ha⟩ := render_members_concat k2 d2 t2
    refine ⟨('"' :: k0 ++ '"' :: ':' :: render d0) ++ ',' :: pre, a, ?_, ha⟩
    rw [render_members, he]
    simp

/-- The raw-text trailing-comma test fails on container text whose inner
part does not end in a comma. -/
theorem ends_with_bracketed (b B y : Char) (inner : List Char) (hb : b ≠ ',')
    (hinner : inner = [] ∨ ∃ pre a, inner = pre ++ [a] ∧ a ≠ ',') :
    ends_with (b :: (inner ++ [B])) [',', y] = false := by
  rcases hinner with rfl | ⟨pre, a, rfl, ha⟩
  · simp [ends_with, hb]
  · have hs : b :: ((pre ++ [a]) ++ [B]) = (b :: pre) ++ [a, B] := by simp
    rw [hs, ends_with]
    have hlen : ((b :: pre) ++ [a, B]).length - [',', y].length = (b :: pre).length := by
      simp
    rw [hlen, List.drop_left]
    simp [ha]

/-- The sanity check accepts every rendered top-level document. -/
theorem sanity_check_render (d : Doc) (hw : wf_doc d = true) (ht : top_level d = true) :
    sanity_check (render d) = .ok () := by
  cases d with
  | dnull => simp [top_level] at ht
  | dbool b => simp [top_level] at ht
  | dnum n => simp [top_level] at ht
  | dstr content => simp [top_level] at ht
  | darr xs =>
    have hs : render (.darr xs) = '[' :: (render_elems xs ++ [']']) := by
      rw [render]
      simp
    have hinner : render_elems xs = [] ∨
        ∃ pre a, render_elems xs = pre ++ [a] ∧ a ≠ ',' := by
      cases xs with
      | nil => exact Or.inl rfl
      | cons d0 t => exact Or.inr (render_elems_concat d0 t)
    have h1 := ends_with_bracketed '[' ']' '\x7d' (render_elems xs) (by decide) hinner
    have h2 := ends_with_bracketed '[' ']' ']' (render_elems xs) (by decide) hinner
    rw [hs, sanity_check.eq_def]
    simp [h1, h2]
  | dobj ps =>
    have hs : render (.dobj ps) = '\x7b' :: (render_members ps ++ ['\x7d']) := by
      rw [render]
      simp
    have hinner : render_members ps = [] ∨
        ∃ pre a, render_members ps = pre ++ [a] ∧ a ≠ ',' := by
      cases ps with
      | nil => exact Or.inl rfl
      | cons k0 d0 t => exact Or.inr (render_members_concat k0 d0 t)
    have h1 := ends_with_bracketed '\x7b' '\x7d' '\x7d' (render_members ps) (by decide) hinner
    have h2 := ends_with_bracketed '\x7b' '\x7d' ']' (render_members ps) (by decide) hinner
    rw [hs, sanity_check.eq_def]
    simp [h1, h2]

/-- The public entry point accepts every rendered well-formed top-level
document and returns exactly the expected value tree. -/
theorem parse_render_ok (d : Doc) (hw : wf_doc d = true) (ht : top_level d = true) :
    parse (render d) = (.ok (to_value d), (render d).length) := by
  have ha := render_ascii d hw
  obtain ⟨c, t, hh, hws, _, _, _⟩ := render_head d
  have hd0 : (render d).drop 0 = c :: t := by rw [List.drop_zero, hh]
  have hcw0 : consume_whitespace (render d) 0 = 0 := cw_stop hd0 hws
  have hsan := sanity_check_render d hw ht
  have hpv := parse_value_render d (render d) 0 (parse_fuel (render d)) []
    hw ha (by simp) delim_ok_nil
    (by
      have h1 := size_doc_le d
      simp only [parse_fuel]
      omega)
  have hdN : (render d).drop (render d).length = [] := by simp
  have hcwN : consume_whitespace (render d) (render d).length = (render d).length :=
    cw_nil hdN
  have hbl : byte_len (render d) = (render d).length := byte_len_ascii ha
  simp only [parse, hcw0, hsan, hpv, Nat.zero_add, hcwN, hbl]
  simp

/-- Digit-inverse evaluations, one per digit. -/
theorem fdi0 : f64_digit_inv (i64_to_f64 0) = some 0 := by decide

/-- Digit-inverse at one. -/
theorem fdi1 : f64_digit_inv (i64_to_f64 1) = some 1 := by decide

/-- Digit-inverse at two. -/
theorem fdi2 : f64_digit_inv (i64_to_f64 2) = some 2 := by decide

/-- Digit-inverse at three. -/
theorem fdi3 : f64_digit_inv (i64_to_f64 3) = some 3 := by decide

/-- Digit-inverse at four. -/
theorem fdi4 : f64_digit_inv (i64_to_f64 4) = some 4 := by decide

/-- Digit-inverse at five. -/
theorem fdi5 : f64_digit_inv (i64_to_f64 5) = some 5 := by decide

/-- Digit-inverse at six. -/
theorem fdi6 : f64_digit_inv (i64_to_f64 6) = some 6 := by decide

/-- Digit-inverse at seven. -/
theorem fdi7 : f64_digit_inv (i64_to_f64 7) = some 7 := by decide

/-- Digit-inverse at eight. -/
theorem fdi8 : f64_digit_inv (i64_to_f64 8) = some 8 := by decide

/-- Digit-inverse at nine. -/
theorem fdi9 : f64_digit_inv (i64_to_f64 9) = some 9 := by decide

/-- The widening of a single digit to `f64` is losslessly invertible. -/
theorem f64_digit_inv_spec : ∀ k : Int, 0 ≤ k → k < 10 →
    f64_digit_inv (i64_to_f64 k) = some k := by
  intro k h1 h2
  have hk : k = 0 ∨ k = 1 ∨ k = 2 ∨ k = 3 ∨ k = 4 ∨ k = 5 ∨ k = 6 ∨ k = 7 ∨
      k = 8 ∨ k = 9 := by omega
  rcases hk with rfl | rfl | rfl | rfl | rfl | rfl | rfl | rfl | rfl | rfl
  · exact fdi0
  · exact fdi1
  · exact fdi2
  · exact fdi3
  · exact fdi4
  · exact fdi5
  · exact fdi6
  · exact fdi7
  · exact fdi8
  · exact fdi9

mutual

/-- On single-digit documents, `from_value` inverts `to_value`. -/
theorem from_to : ∀ d : Doc, small_nums d = true → from_value (to_value d) = some d
  | .dnull, _ => by simp [to_value, from_value]
  | .dbool b, _ => by simp [to_value, from_value]
  | .dnum n, h => by
    have hb : 0 ≤ n ∧ n < 10 := by simpa [small_nums] using h
    simp [to_value, from_value, f64_digit_inv_spec n hb.1 hb.2]
  | .dstr c, _ => by simp [to_value, from_value]
  | .darr xs, h => by
    have hl := from_to_list xs (by simpa [small_nums] using h)
    simp [to_value, from_value, hl]
  | .dobj ps, h => by
    have hl := from_to_pairs ps (by simpa [small_nums] using h)
    simp [to_value, from_value, hl]

/-- Element-wise inversion. -/
theorem from_to_list : ∀ xs : DocList, small_nums_list xs = true →
    from_value_list (to_value_list xs) = some xs
  | .nil, _ => by simp [to_value_list, from_value_list]
  | .cons d t, h => by
    have hp : small_nums d = true ∧ small_nums_list t = true := by
      simpa [small_nums_list] using h
    simp [to_value_list, from_value_list, from_to d hp.1, from_to_list t hp.2]

/-- Member-wise inversion. -/
theorem from_to_pairs : ∀ ps : DocPairs, small_nums_pairs ps = true →
    from_value_pairs (to_value_pairs ps) = some ps
  | .nil, _ => by simp [to_value_pairs, from_value_pairs]
  | .cons k d t, h => by
    have hp : small_nums d = true ∧ small_nums_pairs t = true := by
      simpa [small_nums_pairs] using h
    simp [to_value_pairs, from_value_pairs, from_to d hp.1, from_to_pairs t hp.2]

end

/-- `to_value` is injective on single-digit documents. -/
theorem to_value_inj {d1 d2 : Doc} (h1 : small_nums d1 = true)
    (h2 : small_nums d2 = true) (he : to_value d1 = to_value d2) : d1 = d2 := by
  have e1 := from_to d1 h1
  have e2 := from_to d2 h2
  rw [he, e2] at e1
  exact (Option.some.inj e1).symm

/-! ### Cursor monotonicity -/

/-- `consume` never moves the cursor backwards. -/
theorem consume_mono (s : List Char) (ch : Char) (i : Nat) : i ≤ consume s ch i := by
  unfold consume; split <;> omega

/-- The whitespace loop never moves the cursor backwards. -/
theorem cw_aux_mono : ∀ (l : List Char) (i : Nat), i ≤ consume_whitespace_aux l i
  | [], i => Nat.le_refl i
  | c :: t, i => by
    unfold consume_whitespace_aux
    split
    · exact Nat.le_trans (by omega) (cw_aux_mono t (i + 1))
    · exact Nat.le_refl i

/-- `consume_whitespace` never moves the cursor backwards. -/
theorem cw_mono (s : List Char) (i : Nat) : i ≤ consume_whitespace s i :=
  cw_aux_mono (s.drop i) i

/-- The string scanner moves the cursor forwards, and an `ok` payload
is at least the starting position. -/
theorem string_scan_mono : ∀ (l : List Char) (i : Nat),
    i ≤ (string_scan l i).2 ∧ ∀ j r, string_scan l i = (.ok j, r) → i ≤ j := by
  intro l i
  induction l, i using string_scan.induct with
  | case1 i => simp [string_scan]
  | case2 i => simp [string_scan]
  | case3 i c t he ih =>
    rw [string_scan.eq_def]
    simp only [he]
    simp only [if_true, if_pos, reduceIte]
    refine ⟨by have := ih.1; omega, fun j r h => ?_⟩
    have := ih.2 j r h
    omega
  | case4 i c t he =>
    rw [string_scan.eq_def]
    simp only [he]
    simp [reduceIte]
  | case5 t i h1 =>
    rw [string_scan.eq_def]
    simp [reduceIte]
  | case6 t i h1 h2 =>
    rw [string_scan.eq_def]
    simp [reduceIte]
  | case7 t i h1 h2 h3 =>
    rw [string_scan.eq_def]
    simp [reduceIte]
  | case8 c t i h1 h2 h3 h4 ih =>
    rw [string_scan.eq_def]
    simp only [if_neg h1, if_neg h2, if_neg h3, if_neg h4]
    refine ⟨by have := ih.1; omega, fun j r h => ?_⟩
    have := ih.2 j r h
    omega

/-- `parse_string` never moves the cursor backwards. -/
theorem parse_string_mono (s : List Char) (i : Nat) : i ≤ (parse_string s i).2 := by
  have h1 : i ≤ consume s '"' i := consume_mono s '"' i
  have h2 := cw_mono s (consume s '"' i)
  have h3 := string_scan_mono
    (s.drop (consume_whitespace s (consume s '"' i)))
    (consume_whitespace s (consume s '"' i))
  unfold parse_string
  rcases hscan : string_scan (s.drop (consume_whitespace s (consume s '"' i)))
      (consume_whitespace s (consume s '"' i)) with ⟨o, k⟩
  rw [hscan] at h3
  simp only [hscan]
  cases o with
  | ok j =>
    have h4 := h3.2 j k rfl
    rcases hsl : slice_bytes s (consume_whitespace s (consume s '"' i)) (j - 1) with _ | content
    · simp only [hsl]
      omega
    · simp only [hsl]
      omega
  | err e => simp only []; exact Nat.le_trans (Nat.le_trans h1 h2) h3.1
  | panicked => simp only []; exact Nat.le_trans (Nat.le_trans h1 h2) h3.1

/-- The number scanner never moves the cursor backwards. -/
theorem num_scan_mono : ∀ (l : List Char) (i : Nat) (b : Bool),
    i ≤ (num_scan l i b).1 := by
  intro l i b
  induction l, i, b using num_scan.induct with
  | case1 i b => simp [num_scan]
  | case2 c t i b h ih =>
    rw [num_scan.eq_def]
    simp only [if_pos h]
    omega
  | case3 c t i b h1 h2 =>
    rw [num_scan.eq_def]
    simp only [if_neg h1, if_pos h2]
    simp
  | case4 c t i b h1 h2 ih =>
    rw [num_scan.eq_def]
    simp only [if_neg h1, if_neg h2]
    omega

/-- `parse_number` never moves the cursor backwards. -/
theorem parse_number_mono (s : List Char) (i : Nat) : i ≤ (parse_number s i).2 := by
  have h1 := num_scan_mono (s.drop i) i false
  unfold parse_number
  rcases hns : num_scan (s.drop i) i false with ⟨j, b⟩
  rw [hns] at h1
  simp only [hns]
  rcases hsl : slice_bytes s i j with _ | content
  · simp only [hsl]
    exact h1
  · simp only [hsl]
    rcases b with _ | _
    · simp only [Bool.false_eq_true, if_false]
      split
      · exact h1
      · rcases rust_parse_i64 content with _ | n <;> simp only [] <;> exact h1
    · simp only [if_true]
      rcases rust_parse_f64 content with _ | x <;> simp only [] <;> exact h1

/-- `parse_boolean` never moves the cursor backwards. -/
theorem parse_boolean_mono (s : List Char) (i : Nat) : i ≤ (parse_boolean s i).2 := by
  have h1 := cw_mono s i
  unfold parse_boolean
  rcases hb : (s[consume_whitespace s i]?) with _ | c
  · simp only [hb]
    exact h1
  · simp only [hb]
    split <;> simp only [] <;> omega

/-- `parse_null` never moves the cursor backwards. -/
theorem parse_null_mono (s : List Char) (i : Nat) : i ≤ (parse_null s i).2 := by
  unfold parse_null
  split <;> simp

mutual

/-- `parse_value` never moves the cursor backwards. -/
theorem parse_value_mono : ∀ (fuel : Nat) (s : List Char) (i : Nat),
    i ≤ (parse_value fuel s i).2
  | 0, s, i => Nat.le_refl i
  | fuel + 1, s, i => by
    have h1 := cw_mono s i
    rw [parse_value.eq_def]
    rcases hc : (s[consume_whitespace s i]?) with _ | c
    · simp only [hc]
      exact h1
    · simp only [hc]
      split
      · have h2 := consume_mono s '\x7b' (consume_whitespace s i)
        have h3 := parse_object_loop_mono fuel s
          (consume s '\x7b' (consume_whitespace s i)) []
        omega
      · have h2 := consume_mono s '[' (consume_whitespace s i)
        have h3 := parse_array_loop_mono fuel s
          (consume s '[' (consume_whitespace s i)) []
        omega
      · have h2 := parse_string_mono s (consume_whitespace s i)
        omega
      · rename_i c hne1 hne2 hne3
        split
        · have h2 := parse_number_mono s (consume_whitespace s i)
          omega
        · split
          · have h2 := parse_boolean_mono s (consume_whitespace s i)
            omega
          · split
            · have h2 := parse_null_mono s (consume_whitespace s i)
              omega
            · exact h1
      · exact h1

/-- The object-member loop never moves the cursor backwards. -/
theorem parse_object_loop_mono : ∀ (fuel : Nat) (s : List Char) (i : Nat)
    (acc : List (List Char × JsonValue)), i ≤ (parse_object_loop fuel s i acc).2
  | fuel, s, i, acc => by
    rw [parse_object_loop.eq_def]
    by_cases hbr : (s[i]? = some '\x7d')
    case pos =>
      simp only [if_pos hbr]
      exact consume_mono s '\x7d' i
    case neg =>
      simp only [if_neg hbr]
      match fuel with
      | 0 => exact Nat.le_refl i
      | fuel + 1 =>
        dsimp only
        have h1 := cw_mono s i
        rcases hps : parse_string s (consume_whitespace s i) with ⟨o, i2⟩
        have h2 := parse_string_mono s (consume_whitespace s i)
        rw [hps] at h2
        cases o with
        | err e => exact Nat.le_trans h1 h2
        | panicked => exact Nat.le_trans h1 h2
        | ok kv =>
          cases kv with
          | Null => exact Nat.le_trans h1 h2
          | Boolean b => exact Nat.le_trans h1 h2
          | Number x => exact Nat.le_trans h1 h2
          | Array l => exact Nat.le_trans h1 h2
          | Object m => exact Nat.le_trans h1 h2
          | String key =>
            dsimp only
            have h3 : i2 ≤ (if key = [] then consume s '"' i2 else i2) := by
              split
              · exact consume_mono s '"' i2
              · exact Nat.le_refl i2
            set i3 := (if key = [] then consume s '"' i2 else i2) with hi3
            have h4 := cw_mono s i3
            cases hex : expect s ':' (consume_whitespace s i3) with
            | err e => exact le_trans h1 (le_trans h2 (le_trans h3 h4))
            | panicked => exact le_trans h1 (le_trans h2 (le_trans h3 h4))
            | ok u =>
              dsimp only
              have h5 := consume_mono s ':' (consume_whitespace s i3)
              have h6 := cw_mono s (consume s ':' (consume_whitespace s i3))
              have h7 := parse_value_mono fuel s
                (consume_whitespace s (consume s ':' (consume_whitespace s i3)))
              rcases hpv : parse_value fuel s
                  (consume_whitespace s (consume s ':' (consume_whitespace s i3))) with ⟨o2, i4⟩
              rw [hpv] at h7
              cases o2 with
              | err e => dsimp only; omega
              | panicked => dsimp only; omega
              | ok value =>
                dsimp only
                have h8 := consume_mono s '"' i4
                have h9 := cw_mono s (consume s '"' i4)
                set i5 := consume_whitespace s (consume s '"' i4) with hi5
                by_cases hcm : s[i5]? = some ','
                · simp only [if_pos hcm]
                  have h10 := consume_mono s ',' i5
                  have h11 := consume_mono s '\n' (consume s ',' i5)
                  have h12 := cw_mono s (consume s '\n' (consume s ',' i5))
                  have h13 := parse_object_loop_mono fuel s
                    (consume_whitespace s (consume s '\n' (consume s ',' i5)))
                    (acc ++ [(key, value)])
                  omega
                · simp only [if_neg hcm]
                  by_cases hq : s[i5]? = some '\x7d'
                  · have hq2 : ¬(s[i5]? ≠ some '\x7d') := by simpa using hq
                    simp only [if_neg hq2]
                    have h10 := cw_mono s i5
                    have h11 := parse_object_loop_mono fuel s
                      (consume_whitespace s i5) (acc ++ [(key, value)])
                    omega
                  · simp only [if_pos hq]
                    omega

/-- The array-element loop never moves the cursor backwards. -/
theorem parse_array_loop_mono : ∀ (fuel : Nat) (s : List Char) (i : Nat)
    (acc : List JsonValue), i ≤ (parse_array_loop fuel s i acc).2
  | fuel, s, i, acc => by
    rw [parse_array_loop.eq_def]
    by_cases hbr : (s[i]? = some ']')
    case pos =>
      simp only [if_pos hbr]
      exact consume_mono s ']' i
    case neg =>
      simp only [if_neg hbr]
      match fuel with
      | 0 => exact Nat.le_refl i
      | fuel + 1 =>
        dsimp only
        have h1 := parse_value_mono fuel s i
        rcases hpv : parse_value fuel s i with ⟨o, i2⟩
        rw [hpv] at h1
        cases o with
        | err e => exact h1
        | panicked => exact h1
        | ok value =>
          dsimp only
          have h2 := cw_mono s i2
          set i3 := consume_whitespace s i2 with hi3
          by_cases hcm : s[i3]? = some ','
          · simp only [if_pos hcm]
            have h3 := consume_mono s ',' i3
            have h4 := parse_array_loop_mono fuel s (consume s ',' i3)
              (acc ++ [value])
            omega
          · simp only [if_neg hcm]
            by_cases hq : s[i3]? = some ']'
            · have hq2 : ¬(s[i3]? ≠ some ']') := by simpa using hq
              simp only [if_neg hq2]
              have h3 := parse_array_loop_mono fuel s i3 (acc ++ [value])
              omega
            · simp only [if_pos hq]
              omega
end

/-! ### The claims -/

/-- The non-integral flag after a number scan equals the starting flag or
the presence of a dot or a lowercase e in the scanned run. -/
theorem num_scan_flag : ∀ (l : List Char) (i : Nat) (b : Bool),
    (num_scan l i b).2
      = (b || (l.take ((num_scan l i b).1 - i)).any fun c => c == '.' || c == 'e') := by
  intro l i b
  induction l, i, b using num_scan.induct with
  | case1 i b => simp [num_scan]
  | case2 c t i b h ih =>
    rw [num_scan.eq_def]
    simp only [if_pos h]
    have hm := num_scan_mono t (i + 1) true
    have harith : (num_scan t (i + 1) true).1 - i
        = ((num_scan t (i + 1) true).1 - (i + 1)) + 1 := by omega
    rw [harith]
    simp only [List.take_succ_cons, List.any_cons]
    have hc : (c == '.' || c == 'e') = true := by
      rcases h with h | h <;> simp [h]
    rw [ih, hc]
    simp
  | case3 c t i b h1 h2 =>
    rw [num_scan.eq_def]
    simp only [if_neg h1, if_pos h2]
    simp
  | case4 c t i b h1 h2 ih =>
    rw [num_scan.eq_def]
    simp only [if_neg h1, if_neg h2]
    have hm := num_scan_mono t (i + 1) b
    have harith : (num_scan t (i + 1) b).1 - i
        = ((num_scan t (i + 1) b).1 - (i + 1)) + 1 := by omega
    rw [harith]
    simp only [List.take_succ_cons, List.any_cons]
    have hc : (c == '.' || c == 'e') = false := by
      push_neg at h1
      simp [h1.1, h1.2]
    rw [ih, hc]
    simp

/-- C1 (amended): for every well-formed document of the canonical class
whose top level is an object or array, `parse` of its rendered text
succeeds with exactly the document's value tree — object pairs and array
elements in written order — consuming the whole text.  The claim's
original form (every valid JSON document) fails on numbers outside the
`i64` range; see the counterexample. -/
theorem claim_C1 (d : Doc) (hw : wf_doc d = true) (ht : top_level d = true) :
    parse (render d) = (.ok (to_value d), (render d).length) :=
  parse_render_ok d hw ht

/-- C1 witness: the amended round-trip at the concrete document
rendering to `\x7b"a":1\x7d`. -/
theorem claim_C1_witness :
    wf_doc (Doc.dobj (.cons ['a'] (.dnum 1) .nil)) = true ∧
    top_level (Doc.dobj (.cons ['a'] (.dnum 1) .nil)) = true ∧
    parse (render (Doc.dobj (.cons ['a'] (.dnum 1) .nil)))
      = (.ok (to_value (Doc.dobj (.cons ['a'] (.dnum 1) .nil))),
         (render (Doc.dobj (.cons ['a'] (.dnum 1) .nil))).length) :=
  ⟨rfl, rfl, claim_C1 _ rfl rfl⟩

/-- C1 counterexample: `[99999999999999999999]` is a valid JSON document
(an array holding one number), yet its parse fails: the number literal
has no dot or exponent, is sent down the `i64` path, overflows, and the
parser reports an invalid number. -/
theorem claim_C1_counterexample :
    (parse "[99999999999999999999]".toList).1
      = .err (.InvalidInput "Invalid number") := rfl

/-- C2: the parser is claimed total (value or error, no panic); in fact
on the input `\x7b"\` the string scanner calls unwrap on a missing next
character, and the embedding reaches the explicit panic state. -/
theorem claim_C2 : (parse "\x7b\"\\".toList).1 = .panicked := rfl

/-- C3: the sanity check is claimed to examine the first character of the
whitespace-trimmed document; in fact it looks at the raw first character
of the input, so a document starting with a space before `\x7b` is
rejected as not an object or array. -/
theorem claim_C3 : (parse " \x7b\x7d".toList).1
    = .err (.InvalidInput "Json should be an object or array") := rfl

/-- C4: the extra-characters error is claimed to be raised only when
non-whitespace content remains; in fact the end-of-input test compares
the character cursor with the byte length, so `\x7b\x7d` followed by the
two-byte whitespace U+00A0 — nothing but whitespace after the value —
is rejected with the extra-characters error. -/
theorem claim_C4 : (parse "\x7b\x7d\xa0".toList).1 = .err .UnexcpectedCharacters := rfl

/-- C5 (amended): the non-integral flag is set iff the scanned run holds
a dot or a lowercase e.  A capital E never sets the flag (it only keeps
the run going), so `[1e3]` parses on the floating-point path while
`[1E3]` is an invalid-number error, against the claim that both letter
cases behave alike. -/
theorem claim_C5 :
    (∀ (l : List Char) (i : Nat) (b : Bool),
      (num_scan l i b).2
        = (b || (l.take ((num_scan l i b).1 - i)).any fun c => c == '.' || c == 'e')) ∧
    (parse "[1e3]".toList).1 = .ok (.Array [.Number (.finite 125 3)]) ∧
    (parse "[1E3]".toList).1 = .err (.InvalidInput "Invalid number") :=
  ⟨num_scan_flag, rfl, rfl⟩

/-- C5 counterexample: scanning `1E3` covers all three characters yet
leaves the flag false although the run holds `E`; the literal therefore
goes down the integer path and fails. -/
theorem claim_C5_counterexample :
    num_scan "1E3".toList 0 false = (3, false) ∧
    'E' ∈ "1E3".toList ∧
    (parse "[1E3]".toList).1 = .err (.InvalidInput "Invalid number") :=
  ⟨rfl, by decide, rfl⟩

/-- C6 (amended): on the canonical class restricted to single-digit
numbers, structurally distinct documents parse to distinct value trees.
The claim's original form fails because the parser drops whitespace
after a string's opening quote; see the counterexample. -/
theorem claim_C6 {d1 d2 : Doc} (hw1 : wf_doc d1 = true) (ht1 : top_level d1 = true)
    (hs1 : small_nums d1 = true) (hw2 : wf_doc d2 = true) (ht2 : top_level d2 = true)
    (hs2 : small_nums d2 = true) (hne : d1 ≠ d2) :
    (parse (render d1)).1 ≠ (parse (render d2)).1 := by
  intro h
  rw [parse_render_ok d1 hw1 ht1, parse_render_ok d2 hw2 ht2] at h
  exact hne (to_value_inj hs1 hs2 (Outcome.ok.inj h))

/-- C6 witness: the amended distinctness at the concrete pair
`[]` versus `\x7b\x7d`. -/
theorem claim_C6_witness :
    wf_doc (Doc.darr .nil) = true ∧ top_level (Doc.darr .nil) = true ∧
    small_nums (Doc.darr .nil) = true ∧
    wf_doc (Doc.dobj .nil) = true ∧ top_level (Doc.dobj .nil) = true ∧
    small_nums (Doc.dobj .nil) = true ∧
    Doc.darr .nil ≠ Doc.dobj .nil ∧
    (parse (render (Doc.darr .nil))).1 ≠ (parse (render (Doc.dobj .nil))).1 :=
  ⟨rfl, rfl, rfl, rfl, rfl, rfl, fun h => Doc.noConfusion h,
   claim_C6 rfl rfl rfl rfl rfl rfl (fun h => Doc.noConfusion h)⟩

/-- C6 counterexample: the structurally distinct valid documents
`\x7b" a":1\x7d` and `\x7b"a":1\x7d` parse to the same value tree, since
the parser silently drops whitespace after the opening quote of a key. -/
theorem claim_C6_counterexample :
    "\x7b\" a\":1\x7d" ≠ "\x7b\"a\":1\x7d" ∧
    (parse "\x7b\" a\":1\x7d".toList).1 = (parse "\x7b\"a\":1\x7d".toList).1 :=
  ⟨by decide,
   Eq.trans
     (show (parse "\x7b\" a\":1\x7d".toList).1
         = .ok (.Object [(['a'], .Number (.finite 1 0))]) from rfl)
     (show (parse "\x7b\"a\":1\x7d".toList).1
         = .ok (.Object [(['a'], .Number (.finite 1 0))]) from rfl).symm⟩

/-- C7: a backslash in a string body must be followed by one of the nine
escape characters, else the scan fails with the invalid-escape error;
the validator accepts exactly those nine; and on a legal body both the
backslash and its escape character are retained verbatim in the stored
string value. -/
theorem claim_C7 :
    (∀ (c : Char) (t : List Char) (i : Nat), is_valid_escape c = false →
      string_scan ('\\' :: c :: t) i
        = (.err (.InvalidInput "Invalid escape_char"), i + 1)) ∧
    (∀ c : Char, is_valid_escape c = true ↔
      (c = '"' ∨ c = '\\' ∨ c = '/' ∨ c = 'b' ∨ c = 'f' ∨ c = 'n' ∨ c = 'r' ∨
       c = 't' ∨ c = 'u')) ∧
    (∀ (s : List Char) (i : Nat) (content post : List Char),
      ascii_only s = true → good_str content = true →
      s.drop i = '"' :: (content ++ '"' :: post) →
      parse_string s i = (.ok (.String content), i + content.length + 2)) := by
  refine ⟨?_, ?_, fun s i content post ha hg hd => parse_string_render ha hg hd⟩
  · intro c t i hc
    rw [string_scan.eq_def]
    simp [hc]
  · intro c
    constructor
    · intro h
      simp only [is_valid_escape, Bool.or_eq_true, beq_iff_eq] at h
      tauto
    · intro h
      rcases h with rfl | rfl | rfl | rfl | rfl | rfl | rfl | rfl | rfl <;> rfl

/-- C7 witness: the escape machinery at concrete inputs — `\x` is
rejected, `\n` is accepted, and the body `a\n` is stored verbatim. -/
theorem claim_C7_witness :
    is_valid_escape 'x' = false ∧
    string_scan ['\\', 'x'] 0 = (.err (.InvalidInput "Invalid escape_char"), 1) ∧
    is_valid_escape 'n' = true ∧
    parse_string ('"' :: 'a' :: '\\' :: 'n' :: '"' :: []) 0
      = (.ok (.String ['a', '\\', 'n']), 5) :=
  ⟨rfl, claim_C7.1 'x' [] 0 rfl,
   (claim_C7.2.1 'n').mpr (Or.inr (Or.inr (Or.inr (Or.inr (Or.inr (Or.inl rfl)))))),
   claim_C7.2.2 ('"' :: 'a' :: '\\' :: 'n' :: '"' :: []) 0 ['a', '\\', 'n'] []
     rfl rfl rfl⟩

/-- C8 (amended): empty input fails, but with the generic invalid-input
error, not the not-object-or-array error the claim names. -/
theorem claim_C8 : parse ([] : List Char) = (.err (.InvalidInput "Invalid input"), 0) := rfl

/-- C8 counterexample: the error raised on empty input differs from the
error raised when the first character is not a brace or a bracket, so
the two cases do not share one error kind as claimed. -/
theorem claim_C8_counterexample :
    (parse ([] : List Char)).1 = .err (.InvalidInput "Invalid input") ∧
    (parse ['5']).1 = .err (.InvalidInput "Json should be an object or array") ∧
    Error.InvalidInput "Invalid input"
      ≠ Error.InvalidInput "Json should be an object or array" :=
  ⟨rfl, rfl, by decide⟩

/-- C9: parsing is deterministic — two parses of the same text that both
succeed yield structurally equal value trees. -/
theorem claim_C9 (s : List Char) (v1 v2 : JsonValue)
    (h1 : (parse s).1 = .ok v1) (h2 : (parse s).1 = .ok v2) : v1 = v2 := by
  rw [h1] at h2
  exact Outcome.ok.inj h2

/-- C9 witness: determinism applied at the empty object. -/
theorem claim_C9_witness :
    (parse "\x7b\x7d".toList).1 = .ok (.Object []) ∧
    JsonValue.Object [] = JsonValue.Object [] :=
  ⟨rfl, claim_C9 "\x7b\x7d".toList (.Object []) (.Object []) rfl rfl⟩

/-- C10: the cursor only moves forwards: every consuming primitive and
every parsing routine returns a cursor at least the one it was given, at
every input and every fuel. -/
theorem claim_C10 :
    (∀ (s : List Char) (ch : Char) (i : Nat), i ≤ consume s ch i) ∧
    (∀ (s : List Char) (i : Nat), i ≤ consume_whitespace s i) ∧
    (∀ (s : List Char) (i : Nat), i ≤ (parse_string s i).2) ∧
    (∀ (s : List Char) (i : Nat), i ≤ (parse_number s i).2) ∧
    (∀ (s : List Char) (i : Nat), i ≤ (parse_boolean s i).2) ∧
    (∀ (s : List Char) (i : Nat), i ≤ (parse_null s i).2) ∧
    (∀ (fuel : Nat) (s : List Char) (i : Nat), i ≤ (parse_value fuel s i).2) ∧
    (∀ (fuel : Nat) (s : List Char) (i : Nat) (acc : List (List Char × JsonValue)),
      i ≤ (parse_object_loop fuel s i acc).2) ∧
    (∀ (fuel : Nat) (s : List Char) (i : Nat) (acc : List JsonValue),
      i ≤ (parse_array_loop fuel s i acc).2) :=
  ⟨consume_mono, cw_mono, parse_string_mono, parse_number_mono, parse_boolean_mono,
   parse_null_mono, parse_value_mono, parse_object_loop_mono, parse_array_loop_mono⟩
